import Mathlib

/-!
# my_schedule: the shared event heap of `contrib/my_schedule/my_schedule.c`

A shallow embedding of the scheduler extension: the bounded min-heap of event
pointers kept in shared memory (`swap`, `heapify_up`, `heapify_down`,
`heap_insert`, `heap_pop`), the registration function `my_schedule` and one
iteration of the background worker loop `my_schedule_main`.

Modelling decisions.

* `Heap.data[i]` is a pointer `MySharedData *`.  A pointer is modelled as the
  number of the shared-memory slot it points to, and the slots themselves are a
  map `Mem` from slot numbers to `MySharedData` values.  Two entries of `data`
  that hold the same number are two pointers to the same struct.
* `Heap.size` is a C `int` that the program only increments from `0` and only
  decrements when it is non-zero; it is modelled as a natural number.
* The `int` fields of `Time` are integers; no computation of the program leaves
  the 32-bit range (the largest value is `99 * 3600 + 99 * 60 + 99`).
* A `text` argument and a `char[]` buffer are lists of bytes, one `Char` per byte.
* The lock, the sleep and the signal flag are not part of the state; the order of
  the lock, log, sleep and clock effects of a call is given separately, by the
  effect traces `my_schedule_trace` and `my_schedule_main_trace`.
-/

namespace MySchedule

/-! ## Data model (lines 14-37) -/

/-- `#define CAPACITY 100`. -/
def CAPACITY : Nat := 100

/-- A byte string: the payload of a `text` value or the content of a `char[]`. -/
abbrev Text := List Char

/-- `typedef struct ... Time` (lines 16-22). -/
structure Time where
  hour : Int
  minute : Int
  second : Int
  absolute_sec : Int
deriving DecidableEq

/-- `typedef struct ... MySharedData` (lines 24-30).  The two `char[256]` fields
are represented by the C strings they hold. -/
structure MySharedData where
  is_temp_event : Bool
  string_time : Text
  message : Text
  time : Time
deriving DecidableEq

/-- The shared memory holding the `MySharedData` structs, by slot number. -/
abbrev Mem := Nat → MySharedData

/-- `typedef struct ... Heap` (lines 32-37) without the lock: `data i` is the slot
number that the pointer `data[i]` refers to.  Only the entries `i < CAPACITY`
exist in the C array. -/
structure Heap where
  size : Nat
  data : Nat → Nat

/-- The heap together with the slots its pointers refer to. -/
structure Store where
  heap : Heap
  mem : Mem

/-- The key `heap->data[i]->time.absolute_sec`. -/
def key (mem : Mem) (heap : Heap) (i : Nat) : Int :=
  (mem (heap.data i)).time.absolute_sec

/-! ## Heap operations (lines 51-115) -/

/-- `swap(&data[a], &data[b])` (lines 51-56). -/
def swap (data : Nat → Nat) (a b : Nat) : Nat → Nat :=
  fun i => if i = a then data b else if i = b then data a else data i

/-- The loop of `heapify_up` (lines 60-68).  The first argument bounds the number
of iterations; `index` strictly decreases, so `index` iterations always suffice
(`heapify_up_loop_fuel`). -/
def heapify_up_loop (mem : Mem) : Nat → Heap → Nat → Heap
  | 0, heap, _ => heap
  | fuel + 1, heap, index =>
    if index > 0 then
      let parent := (index - 1) / 2
      if key mem heap index < key mem heap parent then
        heapify_up_loop mem fuel ⟨heap.size, swap heap.data index parent⟩ parent
      else heap
    else heap

/-- `heapify_up(heap, index)` (lines 58-69). -/
def heapify_up (mem : Mem) (heap : Heap) (index : Nat) : Heap :=
  heapify_up_loop mem index heap index

/-- The index `smallest` computed by lines 74-81 of `heapify_down`. -/
def smallest_of (mem : Mem) (heap : Heap) (index : Nat) : Nat :=
  let left := 2 * index + 1
  let right := 2 * index + 2
  let smallest := index
  let smallest :=
    if left < heap.size ∧ key mem heap left < key mem heap smallest then left else smallest
  let smallest :=
    if right < heap.size ∧ key mem heap right < key mem heap smallest then right else smallest
  smallest

/-- The loop of `heapify_down` (lines 73-89).  The first argument bounds the
number of iterations; `index` strictly increases while it stays below `size`, so
`size - index` iterations always suffice (`heapify_down_loop_fuel`). -/
def heapify_down_loop (mem : Mem) : Nat → Heap → Nat → Heap
  | 0, heap, _ => heap
  | fuel + 1, heap, index =>
    let smallest := smallest_of mem heap index
    if smallest ≠ index then
      heapify_down_loop mem fuel ⟨heap.size, swap heap.data index smallest⟩ smallest
    else heap

/-- `heapify_down(heap, index)` (lines 71-90). -/
def heapify_down (mem : Mem) (heap : Heap) (index : Nat) : Heap :=
  heapify_down_loop mem heap.size heap index

/-- The ways a call can end other than by returning. -/
inductive Err where
  /-- The error raised by `elog(ERROR, "Heap overflow")`, line 95. -/
  | heap_overflow
  /-- The error raised by line 214: first parameter must be temp or absl. -/
  | invalid_kind
  /-- The error raised by line 231: second parameter must be in format HH:MM:SS. -/
  | invalid_time
  /-- The array `data[CAPACITY]` is indexed at a position outside `[0, CAPACITY)`. -/
  | out_of_bounds (index : Nat)
  /-- The null pointer is dereferenced. -/
  | null_deref
deriving DecidableEq

/-- `heap_insert(heap, item)` (lines 92-101): the heap after the call, and the
error if the call raised one. -/
def heap_insert (mem : Mem) (heap : Heap) (item : Nat) : Heap × Option Err :=
  if heap.size ≥ CAPACITY then (heap, some Err.heap_overflow)
  else
    let heap1 : Heap := ⟨heap.size, fun i => if i = heap.size then item else heap.data i⟩
    let heap2 := heapify_up mem heap1 heap1.size
    (⟨heap2.size + 1, heap2.data⟩, none)

/-- `heap_pop(heap)` (lines 103-115): the heap after the call and the returned
pointer, `none` for `NULL`. -/
def heap_pop (mem : Mem) (heap : Heap) : Heap × Option Nat :=
  if heap.size = 0 then (heap, none)
  else
    let min := heap.data 0
    let heap1 : Heap :=
      ⟨heap.size, fun i => if i = 0 then heap.data (heap.size - 1) else heap.data i⟩
    let heap2 : Heap := ⟨heap1.size - 1, heap1.data⟩
    (heapify_down mem heap2 0, some min)

/-! ## Library functions used by the program -/

/-- The C string held by a buffer: the bytes before the first NUL. -/
def c_str (bytes : Text) : Text :=
  bytes.takeWhile (fun c => c ≠ Char.ofNat 0)

/-- The C library classification `isspace` in the C locale. -/
def isspace (c : Char) : Bool :=
  c = ' ' || (9 ≤ c.toNat && c.toNat ≤ 13)

/-- The C library classification `isdigit`. -/
def isdigit (c : Char) : Bool :=
  48 ≤ c.toNat && c.toNat ≤ 57

/-- The value of a decimal digit. -/
def digit_val (c : Char) : Int :=
  (c.toNat : Int) - 48

/-- One `%2d` conversion of the C library `sscanf`: white space is skipped, then
at most two characters are read, an optional sign followed by decimal digits.
The result is the converted value and the unread input, or `none` when the
conversion fails (end of input, or no digit). -/
def scan_2d (s : Text) : Option (Int × Text) :=
  match s.dropWhile isspace with
  | [] => none
  | c :: rest =>
    if c = '+' ∨ c = '-' then
      match rest with
      | d :: rest1 =>
        if isdigit d then some ((if c = '-' then - digit_val d else digit_val d), rest1)
        else none
      | [] => none
    else if isdigit c then
      match rest with
      | d :: rest1 =>
        if isdigit d then some (10 * digit_val c + digit_val d, rest1)
        else some (digit_val c, rest)
      | [] => some (digit_val c, [])
    else none

/-- The call `sscanf(buf, "%2d:%2d:%2d", &hour, &minute, &second)` of the C
library: the list of the values it assigns, in order.  The call returns `3`
exactly when the list has three entries (otherwise it returns the number of
entries, or `EOF` when the input ends before the first conversion; the program
only compares the return value with `3`). -/
def sscanf3 (buf : Text) : List Int :=
  match scan_2d buf with
  | none => []
  | some (hour, rest1) =>
    match rest1 with
    | [] => [hour]
    | c1 :: rest2 =>
      if c1 ≠ ':' then [hour]
      else
        match scan_2d rest2 with
        | none => [hour]
        | some (minute, rest3) =>
          match rest3 with
          | [] => [hour, minute]
          | c2 :: rest4 =>
            if c2 ≠ ':' then [hour, minute]
            else
              match scan_2d rest4 with
              | none => [hour, minute]
              | some (second, _) => [hour, minute, second]

/-- The fields of `struct tm` that the program reads and writes. -/
structure Tm where
  tm_hour : Int
  tm_min : Int
  tm_sec : Int
deriving DecidableEq

/-- The effect of the C library `mktime` on the time-of-day fields of its
argument: seconds are carried into minutes and minutes into hours, and the hours
are reduced modulo 24, the carry going to the date fields, which the program
never reads.  No daylight-saving shift is modelled here; `mktime_dst` adds it. -/
def mktime (t : Tm) : Tm :=
  let min := t.tm_min + t.tm_sec / 60
  let hour := t.tm_hour + min / 60
  ⟨hour % 24, min % 60, t.tm_sec % 60⟩

/-! ## Registration: `my_schedule` (lines 189-284) -/

/-- The second of the day `tm_hour * 3600 + tm_min * 60 + tm_sec` (lines 269, 305, 326). -/
def sec_of_tm (t : Tm) : Int :=
  t.tm_hour * 3600 + t.tm_min * 60 + t.tm_sec

/-- Lines 260-269 of `my_schedule`, repeated as lines 316-326 of
`my_schedule_main`: the offset is added to the fields of `now_tm`, `mktime`
normalises them, and the time of the event is read off. -/
def add_offset (now_tm : Tm) (hour minute second : Int) : Time :=
  let t := mktime ⟨now_tm.tm_hour + hour, now_tm.tm_min + minute, now_tm.tm_sec + second⟩
  ⟨t.tm_hour, t.tm_min, t.tm_sec, sec_of_tm t⟩

/-- The value of `event_time` after lines 256-275. -/
def event_time_of (is_temp : Bool) (now_tm : Tm) (hour minute second : Int) : Time :=
  if is_temp then add_offset now_tm hour minute second
  else ⟨hour, minute, second, hour * 3600 + minute * 60 + second⟩

/-- Writing the struct `v` through the pointer `p`. -/
def write_slot (mem : Mem) (p : Nat) (v : MySharedData) : Mem :=
  fun q => if q = p then v else mem q

/-- The block guarded by `data_is_correct` (lines 239-281).  `buf_stat` and `buf`
are the C strings left in the two buffers by the validation, and `hour`, `minute`,
`second` the values `sscanf` reads from `buf` (line 254 scans the same buffer as
line 226).  `now_tm` is the local time sampled at line 257-258.

`shared_heap->data[shared_heap->size]` is evaluated first, at line 246, without
any test of `size`; for `size >= CAPACITY` the index is outside the array and
the call ends there.  A NULL message is dereferenced at line 249, after the
first two fields have been written. -/
def my_schedule_block (shm : Store) (now_tm : Tm) (buf_stat buf : Text)
    (string_message : Option Text) (hour minute second : Int) : Store × Option Err :=
  let size := shm.heap.size
  if size ≥ CAPACITY then (shm, some (Err.out_of_bounds size))
  else
    let p := shm.heap.data size
    let is_temp : Bool := decide (buf_stat = "temp".data)
    let old := shm.mem p
    let slot1 : MySharedData := ⟨is_temp, buf, old.message, old.time⟩
    match string_message with
    | none => (⟨shm.heap, write_slot shm.mem p slot1⟩, some Err.null_deref)
    | some msg =>
      let event_time := event_time_of is_temp now_tm hour minute second
      let slot2 : MySharedData := ⟨is_temp, buf, c_str (msg.take 255), event_time⟩
      let mem2 := write_slot shm.mem p slot2
      let r := heap_insert mem2 shm.heap p
      (⟨r.1, mem2⟩, r.2)

/-- `my_schedule(string_status_event, string_time, string_message)` (lines
189-284) on an attached shared heap: the store after the call, and the error if
the call did not return.  An argument is `none` when it is SQL NULL.  `now_tm`
is the local time the call samples when the event is recurring. -/
def my_schedule (shm : Store) (now_tm : Tm)
    (string_status_event string_time string_message : Option Text) : Store × Option Err :=
  let buf_stat := c_str ((string_status_event.getD []).take 4)
  if string_status_event.isSome ∧ buf_stat ≠ "temp".data ∧ buf_stat ≠ "absl".data then
    (shm, some Err.invalid_kind)
  else
    match string_time with
    | none => (shm, none)
    | some t =>
      let buf := c_str (t.take 8)
      match sscanf3 buf with
      | [hour, minute, second] =>
        if hour < 0 ∨ hour > 23 ∨ minute < 0 ∨ minute > 59 ∨ second < 0 ∨ second > 59 then
          (shm, some Err.invalid_time)
        else if string_status_event.isSome then
          my_schedule_block shm now_tm buf_stat buf string_message hour minute second
        else (shm, none)
      | _ => (shm, some Err.invalid_time)

/-! ## The background worker: `my_schedule_main` (lines 287-339) -/

/-- `InitializeSharedMemory` on a fresh segment (lines 146-161): `size = 0`,
`data[i]` points to the `i`-th struct, and every struct is zeroed. -/
def InitializeSharedMemory : Store :=
  ⟨⟨0, fun i => i⟩, fun _ => ⟨false, [], [], ⟨0, 0, 0, 0⟩⟩⟩

/-- The line written by `elog(LOG, "AAAAAAAAAAAAAAAAAAAAA%s", message)` (line 311). -/
def log_line (message : Text) : Text :=
  "AAAAAAAAAAAAAAAAAAAAA".data ++ message

/-- The assignments to `shared_heap->data[0]->time` (lines 322-326): the four
time fields of the struct behind the pointer `p` are overwritten. -/
def set_time (mem : Mem) (p : Nat) (t : Time) : Mem :=
  write_slot mem p ⟨(mem p).is_temp_event, (mem p).string_time, (mem p).message, t⟩

/-- Lines 313-314: the locals `hour`, `minute`, `second` start with the
indeterminate values `junk`, and `sscanf` overwrites those it converts. -/
def scan_locals (string_time : Text) (junk : Int × Int × Int) : Int × Int × Int :=
  match sscanf3 string_time with
  | [] => junk
  | [hour] => (hour, junk.2.1, junk.2.2)
  | [hour, minute] => (hour, minute, junk.2.2)
  | hour :: minute :: second :: _ => (hour, minute, second)

/-- One iteration of the loop of `my_schedule_main` between `LWLockAcquire` and
`LWLockRelease` (lines 307-335), for the local time `now_tm` sampled at lines
303-304: the store after the iteration and the lines written to the log. -/
def my_schedule_main_iter (shm : Store) (now_tm : Tm) (junk : Int × Int × Int) :
    Store × List Text :=
  let now_sec := sec_of_tm now_tm
  if shm.heap.size ≠ 0 then
    let root := shm.heap.data 0
    if (shm.mem root).time.absolute_sec ≤ now_sec then
      let log := [log_line (shm.mem root).message]
      if (shm.mem root).is_temp_event then
        let hms := scan_locals (shm.mem root).string_time junk
        let t := add_offset now_tm hms.1 hms.2.1 hms.2.2
        let mem1 := set_time shm.mem root t
        (⟨heapify_down mem1 shm.heap 0, mem1⟩, log)
      else
        (⟨(heap_pop shm.mem shm.heap).1, shm.mem⟩, log)
    else (shm, [])
  else (shm, [])


/-! ## Specification vocabulary -/

/-- The live entries `data[0 .. size)`, as slot numbers. -/
def live (heap : Heap) : List Nat :=
  (List.range heap.size).map heap.data

/-- The keys of the live entries, by position. -/
def live_keys (mem : Mem) (heap : Heap) : List Int :=
  (List.range heap.size).map (key mem heap)

/-- The min-heap order of the live entries: every live index `i` has a key not
above the key of each of its children `2i+1`, `2i+2` that is live. -/
def heap_ordered (mem : Mem) (heap : Heap) : Prop :=
  ∀ i, i < heap.size → ∀ c, c < heap.size → (c = 2 * i + 1 ∨ c = 2 * i + 2) →
    key mem heap i ≤ key mem heap c

instance (mem : Mem) (heap : Heap) : Decidable (heap_ordered mem heap) := by
  unfold heap_ordered
  infer_instance

/-- The live entries point to pairwise distinct structs. -/
def live_distinct (heap : Heap) : Prop :=
  ∀ i, i < heap.size → ∀ j, j < heap.size → heap.data i = heap.data j → i = j

instance (heap : Heap) : Decidable (live_distinct heap) := by
  unfold live_distinct
  infer_instance

/-- A registration request: the three non-null arguments of a call of
`my_schedule` and the local time the call samples. -/
structure Call where
  now_tm : Tm
  kind : Text
  time : Text
  message : Text

/-- The call of `my_schedule` for a request. -/
def register (shm : Store) (c : Call) : Store × Option Err :=
  my_schedule shm c.now_tm (some c.kind) (some c.time) (some c.message)

/-- Successive calls of `my_schedule`, stopping at the first that raises an error. -/
def register_all : Store → List Call → Store × Option Err
  | shm, [] => (shm, none)
  | shm, c :: cs =>
    match register shm c with
    | (shm1, none) => register_all shm1 cs
    | (shm1, some e) => (shm1, some e)

/-- The heap after `n` successive calls of `heap_pop`, and the pointers returned. -/
def pop_all (mem : Mem) : Nat → Heap → Heap × List (Option Nat)
  | 0, heap => (heap, [])
  | n + 1, heap =>
    let r := heap_pop mem heap
    let rest := pop_all mem n r.1
    (rest.1, r.2 :: rest.2)

/-- The values `sscanf` reads from the time text of a request. -/
def parsed_time (c : Call) : List Int :=
  sscanf3 (c_str (c.time.take 8))

/-- Whether the kind buffer of a request holds `temp`. -/
def is_temp_call (c : Call) : Bool :=
  decide (c_str (c.kind.take 4) = "temp".data)

/-- A request that passes both validations of `my_schedule`. -/
def valid_call (c : Call) : Prop :=
  (c_str (c.kind.take 4) = "temp".data ∨ c_str (c.kind.take 4) = "absl".data) ∧
  match parsed_time c with
  | [hour, minute, second] =>
    0 ≤ hour ∧ hour ≤ 23 ∧ 0 ≤ minute ∧ minute ≤ 59 ∧ 0 ≤ second ∧ second ≤ 59
  | _ => False

/-- The key with which a valid request is registered: the `absolute_sec` of the
`event_time` computed at lines 254-275. -/
def call_key (c : Call) : Int :=
  match parsed_time c with
  | [hour, minute, second] =>
    (event_time_of (is_temp_call c) c.now_tm hour minute second).absolute_sec
  | _ => 0

/-- The keys after exchanging the entries at `a` and `b`. -/
def swap_keys (k : Nat → Int) (a b : Nat) : Nat → Int :=
  fun i => if i = a then k b else if i = b then k a else k i

/-- Min-heap order of the first `n` entries of a key sequence. -/
def ordered_keys (k : Nat → Int) (n : Nat) : Prop :=
  ∀ p c, c < n → (c = 2 * p + 1 ∨ c = 2 * p + 2) → k p ≤ k c

/-- Invariant of the loop of `heapify_up`: the order can only fail between `j` and
its parent, and the children of `j` are not below the parent of `j`. -/
def up_inv (k : Nat → Int) (n j : Nat) : Prop :=
  (∀ p c, c < n → (c = 2 * p + 1 ∨ c = 2 * p + 2) → c ≠ j → k p ≤ k c) ∧
  (∀ g c, c < n → (c = 2 * j + 1 ∨ c = 2 * j + 2) → (j = 2 * g + 1 ∨ j = 2 * g + 2) → k g ≤ k c)

/-- Invariant of the loop of `heapify_down`: the order can only fail between `j`
and its children, and the children of `j` are not below the parent of `j`. -/
def down_inv (k : Nat → Int) (n j : Nat) : Prop :=
  (∀ p c, c < n → (c = 2 * p + 1 ∨ c = 2 * p + 2) → p ≠ j → k p ≤ k c) ∧
  (∀ g c, c < n → (c = 2 * j + 1 ∨ c = 2 * j + 2) → (j = 2 * g + 1 ∨ j = 2 * g + 2) → k g ≤ k c)

/-- The state of the store while only registrations have run: `data` is still
injective, the live entries are in min-heap order and carry the keys `ks`. -/
structure reg_inv (shm : Store) (ks : List Int) : Prop where
  size_eq : shm.heap.size = ks.length
  inj : Function.Injective shm.heap.data
  ordered : heap_ordered shm.mem shm.heap
  keys : List.Perm (live_keys shm.mem shm.heap) ks

instance (c : Call) : Decidable (valid_call c) := by
  unfold valid_call
  exact @instDecidableAnd _ _ inferInstance (by split <;> infer_instance)

/-- The local time 12:00:00 of the examples. -/
def noon : Tm := ⟨12, 0, 0⟩

/-- A one-shot request with the given time text. -/
def absl_call (time : String) : Call := ⟨noon, "absl".data, time.data, "m".data⟩

/-- A recurring request with the given offset text. -/
def temp_call (time : String) : Call := ⟨noon, "temp".data, time.data, "tick".data⟩

/-- Three requests, with keys 3, 7199 and 1. -/
def three_calls : List Call :=
  [absl_call "00:00:03", temp_call "13:59:59", absl_call "00:00:01"]

/-- Four one-shot requests, with keys 1, 2, 3 and 4. -/
def four_calls : List Call :=
  [absl_call "00:00:01", absl_call "00:00:02", absl_call "00:00:03", absl_call "00:00:04"]

/-- The store after the four requests have been registered. -/
def after_four : Store :=
  (register_all InitializeSharedMemory four_calls).1

/-- The store after one `heap_pop` on `after_four`. -/
def after_pop : Store :=
  ⟨(heap_pop after_four.mem after_four.heap).1, after_four.mem⟩

/-- The store after a further one-shot request with key 0 has been registered. -/
def after_reuse : Store :=
  (register after_pop (absl_call "00:00:00")).1

/-- A store at capacity: one hundred one-shot events for 00:00:00. -/
def full_store : Store :=
  ⟨⟨100, fun i => i⟩, fun _ => ⟨false, "00:00:00".data, "m".data, ⟨0, 0, 0, 0⟩⟩⟩

/-- The time of day that is `d` seconds after the second `now_sec`, modulo one
day, with its hour, minute and second digits. -/
def time_after (now_sec d : Int) : Time :=
  let k := (now_sec + d) % 86400
  ⟨k / 3600, (k / 60) % 60, k % 60, k⟩

/-- A store holding one recurring event, registered at noon with offset 00:00:02. -/
def one_temp : Store :=
  (register InitializeSharedMemory (temp_call "00:00:02")).1

/-- The character of the decimal digit `d`. -/
def digit_char (d : Nat) : Char := Char.ofNat (48 + d)

/-- The two-digit decimal text of `n < 100`. -/
def two_digits (n : Nat) : Text := [digit_char (n / 10), digit_char (n % 10)]

/-- The text `HH:MM:SS` of the second `k` of the day. -/
def time_text (k : Nat) : Text :=
  two_digits (k / 3600) ++ ':' :: (two_digits (k / 60 % 60) ++ ':' :: two_digits (k % 60))

/-- The one-shot request for the second `k` of the day. -/
def absl_of_key (k : Int) : Call := ⟨noon, "absl".data, time_text k.toNat, "m".data⟩

/-- The struct that lines 246-276 of `my_schedule` write for a request whose time
text parses as `(hour, minute, second)`. -/
def slot_of_call (c : Call) (hour minute second : Int) : MySharedData :=
  ⟨is_temp_call c, c_str (c.time.take 8), c_str (c.message.take 255),
    event_time_of (is_temp_call c) c.now_tm hour minute second⟩

/-- The time fields describe one second of the day: the key is in `[0, 86399]` and
`hour`, `minute`, `second` are its digits. -/
def time_ok (t : Time) : Prop :=
  0 ≤ t.absolute_sec ∧ t.absolute_sec ≤ 86399 ∧
  t.absolute_sec = 3600 * t.hour + 60 * t.minute + t.second ∧
  0 ≤ t.hour ∧ t.hour ≤ 23 ∧ 0 ≤ t.minute ∧ t.minute ≤ 59 ∧ 0 ≤ t.second ∧ t.second ≤ 59

instance (t : Time) : Decidable (time_ok t) := by
  unfold time_ok
  infer_instance

/-- The stores reachable from the initialised store by calls of `my_schedule`, with
any arguments and any sampled time, and by iterations of the worker loop.  A call
that ends in an error contributes the store it had reached. -/
inductive Reachable : Store → Prop where
  | init : Reachable InitializeSharedMemory
  | call (shm : Store) (now_tm : Tm) (kind time message : Option Text) :
      Reachable shm → Reachable (my_schedule shm now_tm kind time message).1
  | iterate (shm : Store) (now_tm : Tm) (junk : Int × Int × Int) :
      Reachable shm → Reachable (my_schedule_main_iter shm now_tm junk).1

/-- The entries `data[0 .. CAPACITY)` point to pairwise distinct structs. -/
def data_distinct (heap : Heap) : Prop :=
  ∀ i, i < CAPACITY → ∀ j, j < CAPACITY → heap.data i = heap.data j → i = j

instance (heap : Heap) : Decidable (data_distinct heap) := by
  unfold data_distinct
  infer_instance

/-- The record of a run of a sift loop: the heap it leaves, the number of calls of
`swap`, and the indices at which it read or wrote `data`, in order. -/
structure SiftRun where
  heap : Heap
  swaps : Nat
  indices : List Nat

/-- The loop of `heapify_up` (lines 60-68) with its calls of `swap` counted and its
accesses to `data` recorded: the comparison of line 62 reads `data[index]` and
`data[parent]`, the swap of line 63 reads and writes both. -/
def heapify_up_run (mem : Mem) : Nat → Heap → Nat → SiftRun
  | 0, heap, _ => ⟨heap, 0, []⟩
  | fuel + 1, heap, index =>
    if index > 0 then
      let parent := (index - 1) / 2
      if key mem heap index < key mem heap parent then
        let r := heapify_up_run mem fuel ⟨heap.size, swap heap.data index parent⟩ parent
        ⟨r.heap, r.swaps + 1, [index, parent, index, parent] ++ r.indices⟩
      else ⟨heap, 0, [index, parent]⟩
    else ⟨heap, 0, []⟩

/-- The indices of `data` read by lines 78-81 of `heapify_down`: `data[left]` and
`data[smallest]` when `left < size`, then `data[right]` and `data[smallest]` when
`right < size` (the operator `&&` does not evaluate its right operand otherwise). -/
def down_reads (mem : Mem) (heap : Heap) (index : Nat) : List Nat :=
  let left := 2 * index + 1
  let right := 2 * index + 2
  let smallest := index
  let reads1 := if left < heap.size then [left, smallest] else []
  let smallest :=
    if left < heap.size ∧ key mem heap left < key mem heap smallest then left else smallest
  let reads2 := if right < heap.size then [right, smallest] else []
  reads1 ++ reads2

/-- The loop of `heapify_down` (lines 73-89) with its calls of `swap` counted and its
accesses to `data` recorded. -/
def heapify_down_run (mem : Mem) : Nat → Heap → Nat → SiftRun
  | 0, heap, _ => ⟨heap, 0, []⟩
  | fuel + 1, heap, index =>
    let smallest := smallest_of mem heap index
    if smallest ≠ index then
      let r := heapify_down_run mem fuel ⟨heap.size, swap heap.data index smallest⟩ smallest
      ⟨r.heap, r.swaps + 1, down_reads mem heap index ++ [index, smallest] ++ r.indices⟩
    else ⟨heap, 0, down_reads mem heap index⟩

/-- An effect of a statement of `my_schedule` or of `my_schedule_main`, with the
source line of the statement. -/
inductive Effect where
  /-- `LWLockAcquire(&shared_heap->lock, LW_EXCLUSIVE)`. -/
  | lock_acquire (line : Nat)
  /-- `LWLockRelease(&shared_heap->lock)`. -/
  | lock_release (line : Nat)
  /-- `elog(LOG, ...)`. -/
  | log (line : Nat)
  /-- `pg_usleep(...)`. -/
  | sleep (line : Nat)
  /-- `time(NULL)` or `localtime(...)`. -/
  | clock (line : Nat)
  /-- A statement that reads or writes `size`, `data` or a slot, the calls of
  `heap_insert`, `heap_pop` and `heapify_down` included. -/
  | access (line : Nat)
  /-- `elog(ERROR, ...)` or `ereport(ERROR, ...)`: the call ends. -/
  | error (line : Nat)
deriving DecidableEq

/-- The effects of the block guarded by `data_is_correct` (lines 244-280), in
order.  The block ends early, with the lock held, at the access `data[size]` of
line 246 when `size >= CAPACITY`, and at line 249 when the message is NULL. -/
def my_schedule_block_trace (shm : Store) (buf_stat : Text) (string_message : Option Text) :
    List Effect :=
  if shm.heap.size ≥ CAPACITY then [Effect.lock_acquire 244, Effect.access 246]
  else
    match string_message with
    | none => [Effect.lock_acquire 244, Effect.access 246, Effect.access 247]
    | some _ =>
      [Effect.lock_acquire 244, Effect.access 246, Effect.access 247, Effect.access 251,
        Effect.access 252] ++
      (if buf_stat = "temp".data then [Effect.clock 257, Effect.clock 258] else []) ++
      [Effect.access 276, Effect.access 278, Effect.lock_release 280]

/-- The effects of a call of `my_schedule` (lines 207-283), in order, along the
control flow of `my_schedule`. -/
def my_schedule_trace (shm : Store)
    (string_status_event string_time string_message : Option Text) : List Effect :=
  let buf_stat := c_str ((string_status_event.getD []).take 4)
  if string_status_event.isSome ∧ buf_stat ≠ "temp".data ∧ buf_stat ≠ "absl".data then
    [Effect.error 214]
  else
    match string_time with
    | none => []
    | some t =>
      match sscanf3 (c_str (t.take 8)) with
      | [hour, minute, second] =>
        if hour < 0 ∨ hour > 23 ∨ minute < 0 ∨ minute > 59 ∨ second < 0 ∨ second > 59 then
          [Effect.error 231]
        else if string_status_event.isSome then
          my_schedule_block_trace shm buf_stat string_message
        else []
      | _ => [Effect.error 231]

/-- The effects of one iteration of the loop of `my_schedule_main` (lines 303-337),
in order, along the control flow of `my_schedule_main_iter`. -/
def my_schedule_main_trace (shm : Store) (now_tm : Tm) : List Effect :=
  [Effect.clock 303, Effect.clock 304, Effect.lock_acquire 307, Effect.access 309] ++
  (if shm.heap.size ≠ 0 then
    Effect.access 310 ::
    (if (shm.mem (shm.heap.data 0)).time.absolute_sec ≤ sec_of_tm now_tm then
      [Effect.access 311, Effect.log 311, Effect.access 312] ++
      (if (shm.mem (shm.heap.data 0)).is_temp_event then
        [Effect.access 314, Effect.access 322, Effect.access 323, Effect.access 324,
          Effect.access 325, Effect.access 328]
      else [Effect.access 330])
    else [])
  else []) ++
  [Effect.lock_release 335, Effect.sleep 337]

/-- Logging, sleeping and wall-clock sampling. -/
def is_io : Effect → Bool
  | Effect.log _ => true
  | Effect.sleep _ => true
  | Effect.clock _ => true
  | _ => false

/-- Sleeping. -/
def is_sleep : Effect → Bool
  | Effect.sleep _ => true
  | _ => false

/-- A read or write of `size`, `data` or a slot. -/
def is_access : Effect → Bool
  | Effect.access _ => true
  | _ => false

/-- The effects of a trace, each with whether the heap lock is held when it
occurs; `held` tells whether the lock is held at the start. -/
def with_lock : Bool → List Effect → List (Bool × Effect)
  | _, [] => []
  | held, Effect.lock_acquire l :: tr => (held, Effect.lock_acquire l) :: with_lock true tr
  | held, Effect.lock_release l :: tr => (held, Effect.lock_release l) :: with_lock false tr
  | held, Effect.log l :: tr => (held, Effect.log l) :: with_lock held tr
  | held, Effect.sleep l :: tr => (held, Effect.sleep l) :: with_lock held tr
  | held, Effect.clock l :: tr => (held, Effect.clock l) :: with_lock held tr
  | held, Effect.access l :: tr => (held, Effect.access l) :: with_lock held tr
  | held, Effect.error l :: tr => (held, Effect.error l) :: with_lock held tr

/-- No logging, sleeping or clock sampling occurs while the lock is held, except
for the listed effects. -/
def io_outside_except (allowed : List Effect) (tr : List Effect) : Prop :=
  ∀ x ∈ with_lock false tr, is_io x.2 = true → x.1 = false ∨ x.2 ∈ allowed

/-- No sleeping occurs while the lock is held. -/
def sleep_outside (tr : List Effect) : Prop :=
  ∀ x ∈ with_lock false tr, is_sleep x.2 = true → x.1 = false

/-- Every read or write of `size`, `data` or a slot occurs while the lock is held. -/
def access_inside (tr : List Effect) : Prop :=
  ∀ x ∈ with_lock false tr, is_access x.2 = true → x.1 = true

instance (allowed tr : List Effect) : Decidable (io_outside_except allowed tr) := by
  unfold io_outside_except
  infer_instance

instance (tr : List Effect) : Decidable (sleep_outside tr) := by
  unfold sleep_outside
  infer_instance

instance (tr : List Effect) : Decidable (access_inside tr) := by
  unfold access_inside
  infer_instance

/-- The C library `mktime` applied to the struct that `localtime` filled, in a time
zone with daylight saving: when a daylight-saving change lies between the sampled
local time and the requested one, the flag `tm_isdst` left by `localtime` no longer
fits the requested time and `mktime` moves the local time by the change, `shift`
seconds (3600 when the clocks are set forward, -3600 when they are set back).  With
`shift = 0` this is `mktime`. -/
def mktime_dst (shift : Int) (t : Tm) : Tm :=
  mktime ⟨t.tm_hour, t.tm_min, t.tm_sec + shift⟩

/-- Lines 316-326 of `my_schedule_main`, as `add_offset`, with `mktime_dst` for the
call of `mktime` at line 320. -/
def add_offset_dst (shift : Int) (now_tm : Tm) (hour minute second : Int) : Time :=
  let t := mktime_dst shift
    ⟨now_tm.tm_hour + hour, now_tm.tm_min + minute, now_tm.tm_sec + second⟩
  ⟨t.tm_hour, t.tm_min, t.tm_sec, sec_of_tm t⟩

/-- One iteration of the loop of `my_schedule_main` (lines 307-335), as
`my_schedule_main_iter`, when the call of `mktime` at line 320 applies the
daylight-saving change `shift`. -/
def my_schedule_main_iter_dst (shift : Int) (shm : Store) (now_tm : Tm)
    (junk : Int × Int × Int) : Store × List Text :=
  let now_sec := sec_of_tm now_tm
  if shm.heap.size ≠ 0 then
    let root := shm.heap.data 0
    if (shm.mem root).time.absolute_sec ≤ now_sec then
      let log := [log_line (shm.mem root).message]
      if (shm.mem root).is_temp_event then
        let hms := scan_locals (shm.mem root).string_time junk
        let t := add_offset_dst shift now_tm hms.1 hms.2.1 hms.2.2
        let mem1 := set_time shm.mem root t
        (⟨heapify_down mem1 shm.heap 0, mem1⟩, log)
      else
        (⟨(heap_pop shm.mem shm.heap).1, shm.mem⟩, log)
    else (shm, [])
  else (shm, [])

/-- A store holding one recurring event with offset 00:45:00, registered at
00:45:00, so due at 01:30:00. -/
def dst_store : Store :=
  (register InitializeSharedMemory ⟨⟨0, 45, 0⟩, "temp".data, "00:45:00".data, "tick".data⟩).1

/-- The memory of `after_four` with the key of the root raised to 9. -/
def sink_mem : Mem :=
  set_time after_four.mem (after_four.heap.data 0) ⟨0, 0, 9, 9⟩

/-- The memory of `after_four` with the key of the last live entry lowered to 0. -/
def rise_mem : Mem :=
  set_time after_four.mem (after_four.heap.data 3) ⟨0, 0, 0, 0⟩

/-! ## Lemmas on the two sift loops -/

theorem key_swap (mem : Mem) (heap : Heap) (a b : Nat) :
    key mem ⟨heap.size, swap heap.data a b⟩ = swap_keys (key mem heap) a b := by
  funext i
  simp only [key, swap, swap_keys]
  split_ifs <;> rfl

theorem up_inv_step (k : Nat → Int) (n j p : Nat) (hinv : up_inv k n j) (hj : j < n)
    (hp : j = 2 * p + 1 ∨ j = 2 * p + 2) (hlt : k j < k p) :
    up_inv (swap_keys k j p) n p := by
  obtain ⟨hA, hB⟩ := hinv
  refine ⟨?_, ?_⟩
  · intro q c hc hqc hcp
    simp only [swap_keys]
    by_cases h1 : c = j
    · subst h1
      have hq : q = p := by omega
      subst hq
      have : q ≠ c := by omega
      simp [this]
      omega
    · have hcne : ¬ c = p := hcp
      simp only [h1, hcne, if_false]
      by_cases h2 : q = j
      · subst h2
        simp only [if_true]
        exact hB p c hc hqc hp
      · by_cases h3 : q = p
        · subst h3
          simp only [h2, if_false, if_true]
          have := hA q c hc hqc h1
          omega
        · simp only [h2, h3, if_false]
          exact hA q c hc hqc h1
  · intro g c hc hcp hpg
    simp only [swap_keys]
    have hg1 : ¬ g = j := by omega
    have hg2 : ¬ g = p := by omega
    simp only [hg1, hg2, if_false]
    have hgp : k g ≤ k p := hA g p (by omega) hpg (by omega)
    by_cases h1 : c = j
    · subst h1
      simp only [if_true]
      exact hgp
    · have h2 : ¬ c = p := by omega
      simp only [h1, h2, if_false]
      have := hA p c hc hcp h1
      omega

theorem up_inv_done (k : Nat → Int) (n j : Nat) (hinv : up_inv k n j)
    (hstop : j = 0 ∨ ¬ k j < k ((j - 1) / 2)) : ordered_keys k n := by
  obtain ⟨hA, _⟩ := hinv
  intro p c hc hpc
  by_cases h1 : c = j
  · subst h1
    rcases hstop with h0 | h0
    · omega
    · have hp : (c - 1) / 2 = p := by omega
      rw [hp] at h0
      omega
  · exact hA p c hc hpc h1

theorem heapify_up_loop_ordered (mem : Mem) (n : Nat) :
    ∀ (fuel : Nat) (heap : Heap) (index : Nat), index ≤ fuel → index < n →
      up_inv (key mem heap) n index →
      ordered_keys (key mem (heapify_up_loop mem fuel heap index)) n := by
  intro fuel
  induction fuel with
  | zero =>
    intro heap index hle _ hinv
    have h0 : index = 0 := by omega
    simp only [heapify_up_loop]
    exact up_inv_done _ n index hinv (Or.inl h0)
  | succ fuel ih =>
    intro heap index hle hn hinv
    simp only [heapify_up_loop]
    by_cases hpos : index > 0
    · simp only [hpos, if_true]
      by_cases hlt : key mem heap index < key mem heap ((index - 1) / 2)
      · simp only [hlt, if_true]
        apply ih
        · omega
        · omega
        · rw [key_swap]
          exact up_inv_step _ n index _ hinv hn (by omega) hlt
      · simp only [hlt, if_false]
        exact up_inv_done _ n index hinv (Or.inr hlt)
    · simp only [hpos, if_false]
      exact up_inv_done _ n index hinv (Or.inl (by omega))

theorem smallest_of_cases (mem : Mem) (heap : Heap) (j : Nat) :
    (smallest_of mem heap j = j ∧
        (2 * j + 1 < heap.size → key mem heap j ≤ key mem heap (2 * j + 1)) ∧
        (2 * j + 2 < heap.size → key mem heap j ≤ key mem heap (2 * j + 2))) ∨
    (smallest_of mem heap j = 2 * j + 1 ∧ 2 * j + 1 < heap.size ∧
        key mem heap (2 * j + 1) < key mem heap j ∧
        (2 * j + 2 < heap.size → key mem heap (2 * j + 1) ≤ key mem heap (2 * j + 2))) ∨
    (smallest_of mem heap j = 2 * j + 2 ∧ 2 * j + 2 < heap.size ∧
        key mem heap (2 * j + 2) < key mem heap j ∧
        key mem heap (2 * j + 2) ≤ key mem heap (2 * j + 1)) := by
  unfold smallest_of
  dsimp only
  by_cases h1 : 2 * j + 1 < heap.size ∧ key mem heap (2 * j + 1) < key mem heap j
  · rw [if_pos h1]
    by_cases h2 : 2 * j + 2 < heap.size ∧ key mem heap (2 * j + 2) < key mem heap (2 * j + 1)
    · rw [if_pos h2]
      right; right
      refine ⟨rfl, h2.1, ?_, ?_⟩ <;> omega
    · rw [if_neg h2]
      right; left
      refine ⟨rfl, h1.1, h1.2, ?_⟩
      intro h3
      have : ¬ key mem heap (2 * j + 2) < key mem heap (2 * j + 1) := fun h => h2 ⟨h3, h⟩
      omega
  · rw [if_neg h1]
    by_cases h2 : 2 * j + 2 < heap.size ∧ key mem heap (2 * j + 2) < key mem heap j
    · rw [if_pos h2]
      right; right
      refine ⟨rfl, h2.1, h2.2, ?_⟩
      have : ¬ key mem heap (2 * j + 1) < key mem heap j := fun h => h1 ⟨by omega, h⟩
      omega
    · rw [if_neg h2]
      left
      refine ⟨rfl, ?_, ?_⟩
      · intro h3
        have : ¬ key mem heap (2 * j + 1) < key mem heap j := fun h => h1 ⟨h3, h⟩
        omega
      · intro h3
        have : ¬ key mem heap (2 * j + 2) < key mem heap j := fun h => h2 ⟨h3, h⟩
        omega

theorem down_inv_step (k : Nat → Int) (n j s : Nat) (hinv : down_inv k n j) (hs : s < n)
    (hjs : s = 2 * j + 1 ∨ s = 2 * j + 2) (hlt : k s < k j)
    (hsib : ∀ c, c < n → (c = 2 * j + 1 ∨ c = 2 * j + 2) → k s ≤ k c) :
    down_inv (swap_keys k j s) n s := by
  obtain ⟨hA, hB⟩ := hinv
  refine ⟨?_, ?_⟩
  · intro q c hc hqc hqs
    simp only [swap_keys]
    have hq2 : ¬ q = s := hqs
    by_cases h1 : q = j
    · subst h1
      have hcq : ¬ c = q := by omega
      simp only [if_true, hcq, if_false]
      by_cases h2 : c = s
      · subst h2
        simp only [if_true]
        omega
      · simp only [h2, if_false]
        exact hsib c hc hqc
    · simp only [h1, hq2, if_false]
      by_cases h2 : c = j
      · subst h2
        simp only [if_true]
        exact hB q s hs hjs hqc
      · have h3 : ¬ c = s := by omega
        simp only [h2, h3, if_false]
        exact hA q c hc hqc h1
  · intro g c hc hcs hsg
    have hg : g = j := by omega
    subst hg
    simp only [swap_keys]
    have h1 : ¬ c = g := by omega
    have h2 : ¬ c = s := by omega
    simp only [if_true, h1, h2, if_false]
    exact hA s c hc hcs (by omega)

theorem down_inv_done (k : Nat → Int) (n j : Nat) (hinv : down_inv k n j)
    (h1 : 2 * j + 1 < n → k j ≤ k (2 * j + 1)) (h2 : 2 * j + 2 < n → k j ≤ k (2 * j + 2)) :
    ordered_keys k n := by
  obtain ⟨hA, _⟩ := hinv
  intro p c hc hpc
  by_cases hp : p = j
  · subst hp
    rcases hpc with h | h
    · subst h; exact h1 hc
    · subst h; exact h2 hc
  · exact hA p c hc hpc hp

theorem heapify_down_loop_size (mem : Mem) :
    ∀ (fuel : Nat) (heap : Heap) (index : Nat),
      (heapify_down_loop mem fuel heap index).size = heap.size := by
  intro fuel
  induction fuel with
  | zero => intro heap index; rfl
  | succ fuel ih =>
    intro heap index
    simp only [heapify_down_loop]
    split_ifs
    · rw [ih]
    · rfl

theorem heapify_up_loop_size (mem : Mem) :
    ∀ (fuel : Nat) (heap : Heap) (index : Nat),
      (heapify_up_loop mem fuel heap index).size = heap.size := by
  intro fuel
  induction fuel with
  | zero => intro heap index; rfl
  | succ fuel ih =>
    intro heap index
    simp only [heapify_up_loop]
    split_ifs
    · rw [ih]
    · rfl
    · rfl

theorem heapify_down_loop_ordered (mem : Mem) :
    ∀ (fuel : Nat) (heap : Heap) (index : Nat), heap.size ≤ index + fuel →
      down_inv (key mem heap) heap.size index →
      ordered_keys (key mem (heapify_down_loop mem fuel heap index)) heap.size := by
  intro fuel
  induction fuel with
  | zero =>
    intro heap index hle hinv
    simp only [heapify_down_loop]
    exact down_inv_done _ _ index hinv (fun h => by omega) (fun h => by omega)
  | succ fuel ih =>
    intro heap index hle hinv
    simp only [heapify_down_loop]
    rcases smallest_of_cases mem heap index with ⟨hs, h1, h2⟩ | ⟨hs, hlt, hk, hsib⟩ | ⟨hs, hlt, hk, hsib⟩
    · simp only [hs, ne_eq, not_true_eq_false, if_false]
      exact down_inv_done _ _ index hinv h1 h2
    · have hne : 2 * index + 1 ≠ index := by omega
      simp only [hs, ne_eq, hne, not_false_eq_true, if_true]
      have := ih ⟨heap.size, swap heap.data index (2 * index + 1)⟩ (2 * index + 1)
        (by simp only; omega)
        (by
          rw [key_swap]
          refine down_inv_step _ _ index _ hinv hlt (Or.inl rfl) hk ?_
          intro c hc hcj
          rcases hcj with h | h
          · subst h; exact le_refl _
          · subst h; exact hsib hc)
      exact this
    · have hne : 2 * index + 2 ≠ index := by omega
      simp only [hs, ne_eq, hne, not_false_eq_true, if_true]
      have := ih ⟨heap.size, swap heap.data index (2 * index + 2)⟩ (2 * index + 2)
        (by simp only; omega)
        (by
          rw [key_swap]
          refine down_inv_step _ _ index _ hinv hlt (Or.inr rfl) hk ?_
          intro c hc hcj
          rcases hcj with h | h
          · subst h; exact hsib
          · subst h; exact le_refl _)
      exact this

/-! ## The sift loops permute the entries -/

theorem swap_eq_comp (data : Nat → Nat) (a b : Nat) :
    swap data a b = data ∘ (Equiv.swap a b) := by
  funext i
  simp only [swap, Function.comp, Equiv.swap_apply_def]
  split_ifs <;> rfl

theorem map_range_perm (σ : Equiv.Perm Nat) (n : Nat) (hfix : ∀ i, n ≤ i → σ i = i) :
    List.Perm ((List.range n).map σ) (List.range n) := by
  have hlt : ∀ y, y < n → σ y < n := by
    intro y hy
    by_contra hcon
    have h1 : σ (σ y) = σ y := hfix _ (by omega)
    have h2 : σ y = y := σ.injective h1
    omega
  refine (List.perm_ext_iff_of_nodup ?_ (List.nodup_range n)).2 ?_
  · exact List.Nodup.map σ.injective (List.nodup_range n)
  · intro x
    simp only [List.mem_map, List.mem_range]
    constructor
    · rintro ⟨y, hy, rfl⟩
      exact hlt y hy
    · intro hx
      refine ⟨σ.symm x, ?_, by simp⟩
      by_contra hcon
      have h1 : σ (σ.symm x) = σ.symm x := hfix _ (by omega)
      rw [Equiv.apply_symm_apply] at h1
      omega

theorem map_comp_perm {α : Type} (f : Nat → α) (σ : Equiv.Perm Nat) (n : Nat)
    (hfix : ∀ i, n ≤ i → σ i = i) :
    List.Perm ((List.range n).map (f ∘ σ)) ((List.range n).map f) := by
  rw [← List.map_map]
  exact (map_range_perm σ n hfix).map f

theorem heapify_up_loop_perm (mem : Mem) :
    ∀ (fuel : Nat) (heap : Heap) (index : Nat), ∃ σ : Equiv.Perm Nat,
      (heapify_up_loop mem fuel heap index).data = heap.data ∘ σ ∧
      ∀ i, index < i → σ i = i := by
  intro fuel
  induction fuel with
  | zero => intro heap index; exact ⟨Equiv.refl _, rfl, fun _ _ => rfl⟩
  | succ fuel ih =>
    intro heap index
    simp only [heapify_up_loop]
    split_ifs with hpos hlt
    · obtain ⟨σ, h1, h2⟩ := ih ⟨heap.size, swap heap.data index ((index - 1) / 2)⟩ ((index - 1) / 2)
      refine ⟨σ.trans (Equiv.swap index ((index - 1) / 2)), ?_, ?_⟩
      · rw [h1, swap_eq_comp]
        rfl
      · intro i hi
        have h3 : σ i = i := h2 i (by omega)
        simp only [Equiv.trans_apply, h3]
        exact Equiv.swap_apply_of_ne_of_ne (by omega) (by omega)
    · exact ⟨Equiv.refl _, rfl, fun _ _ => rfl⟩
    · exact ⟨Equiv.refl _, rfl, fun _ _ => rfl⟩

theorem heapify_down_loop_perm (mem : Mem) :
    ∀ (fuel : Nat) (heap : Heap) (index : Nat), ∃ σ : Equiv.Perm Nat,
      (heapify_down_loop mem fuel heap index).data = heap.data ∘ σ ∧
      ∀ i, (i < index ∨ heap.size ≤ i) → σ i = i := by
  intro fuel
  induction fuel with
  | zero => intro heap index; exact ⟨Equiv.refl _, rfl, fun _ _ => rfl⟩
  | succ fuel ih =>
    intro heap index
    simp only [heapify_down_loop]
    rcases smallest_of_cases mem heap index with ⟨hs, _, _⟩ | ⟨hs, hlt, _, _⟩ | ⟨hs, hlt, _, _⟩
    · simp only [hs, ne_eq, not_true_eq_false, if_false]
      exact ⟨Equiv.refl _, rfl, fun _ _ => rfl⟩
    · have hne : 2 * index + 1 ≠ index := by omega
      simp only [hs, ne_eq, hne, not_false_eq_true, if_true]
      obtain ⟨σ, h1, h2⟩ := ih ⟨heap.size, swap heap.data index (2 * index + 1)⟩ (2 * index + 1)
      refine ⟨σ.trans (Equiv.swap index (2 * index + 1)), ?_, ?_⟩
      · rw [h1, swap_eq_comp]
        rfl
      · intro i hi
        have h3 : σ i = i := h2 i (by simp only; omega)
        simp only [Equiv.trans_apply, h3]
        exact Equiv.swap_apply_of_ne_of_ne (by omega) (by omega)
    · have hne : 2 * index + 2 ≠ index := by omega
      simp only [hs, ne_eq, hne, not_false_eq_true, if_true]
      obtain ⟨σ, h1, h2⟩ := ih ⟨heap.size, swap heap.data index (2 * index + 2)⟩ (2 * index + 2)
      refine ⟨σ.trans (Equiv.swap index (2 * index + 2)), ?_, ?_⟩
      · rw [h1, swap_eq_comp]
        rfl
      · intro i hi
        have h3 : σ i = i := h2 i (by simp only; omega)
        simp only [Equiv.trans_apply, h3]
        exact Equiv.swap_apply_of_ne_of_ne (by omega) (by omega)

/-! ## The iteration bounds of the sift loops are never reached -/

/-- Iterations beyond `index` are never used by the loop of `heapify_up`. -/
theorem heapify_up_loop_fuel (mem : Mem) :
    ∀ (f1 f2 : Nat) (heap : Heap) (index : Nat), index ≤ f1 → index ≤ f2 →
      heapify_up_loop mem f1 heap index = heapify_up_loop mem f2 heap index := by
  intro f1
  induction f1 with
  | zero =>
    intro f2 heap index h1 _
    have h0 : index = 0 := by omega
    subst h0
    cases f2 <;> simp [heapify_up_loop]
  | succ f1 ih =>
    intro f2 heap index h1 h2
    cases f2 with
    | zero =>
      have h0 : index = 0 := by omega
      subst h0
      simp [heapify_up_loop]
    | succ f2 =>
      simp only [heapify_up_loop]
      split_ifs with hpos hlt
      · exact ih f2 _ _ (by omega) (by omega)
      · rfl
      · rfl

theorem smallest_of_beyond (mem : Mem) (heap : Heap) (index : Nat) (h : heap.size ≤ index) :
    smallest_of mem heap index = index := by
  rcases smallest_of_cases mem heap index with ⟨hs, _, _⟩ | ⟨_, hlt, _, _⟩ | ⟨_, hlt, _, _⟩
  · exact hs
  · omega
  · omega

/-- Iterations beyond `size - index` are never used by the loop of `heapify_down`. -/
theorem heapify_down_loop_fuel (mem : Mem) :
    ∀ (f1 f2 : Nat) (heap : Heap) (index : Nat), heap.size ≤ index + f1 →
      heap.size ≤ index + f2 →
      heapify_down_loop mem f1 heap index = heapify_down_loop mem f2 heap index := by
  intro f1
  induction f1 with
  | zero =>
    intro f2 heap index h1 _
    have hs := smallest_of_beyond mem heap index (by omega)
    cases f2 <;> simp [heapify_down_loop, hs]
  | succ f1 ih =>
    intro f2 heap index h1 h2
    cases f2 with
    | zero =>
      have hs := smallest_of_beyond mem heap index (by omega)
      simp [heapify_down_loop, hs]
    | succ f2 =>
      simp only [heapify_down_loop]
      rcases smallest_of_cases mem heap index with ⟨hs, _, _⟩ | ⟨hs, hlt, _, _⟩ | ⟨hs, hlt, _, _⟩
      · simp only [hs, ne_eq, not_true_eq_false, if_false]
      · have hne : 2 * index + 1 ≠ index := by omega
        simp only [hs, ne_eq, hne, not_false_eq_true, if_true]
        exact ih f2 _ _ (by simp only; omega) (by simp only; omega)
      · have hne : 2 * index + 2 ≠ index := by omega
        simp only [hs, ne_eq, hne, not_false_eq_true, if_true]
        exact ih f2 _ _ (by simp only; omega) (by simp only; omega)

/-! ## Lemmas on `heap_insert` and `heap_pop` -/

theorem heap_ordered_iff (mem : Mem) (heap : Heap) :
    heap_ordered mem heap ↔ ordered_keys (key mem heap) heap.size := by
  constructor
  · intro h p c hc hpc
    exact h p (by omega) c hc hpc
  · intro h i _ c hc hic
    exact h i c hc hic

theorem key_congr (mem : Mem) (h1 h2 : Heap) (hd : h1.data = h2.data) :
    key mem h1 = key mem h2 := by
  funext i
  simp only [key, hd]

theorem ordered_root_min (k : Nat → Int) (n : Nat) (ho : ordered_keys k n) :
    ∀ i, i < n → k 0 ≤ k i := by
  intro i
  induction i using Nat.strong_induction_on with
  | _ i ih =>
    intro hi
    by_cases h0 : i = 0
    · subst h0; exact le_refl _
    · have h1 := ih ((i - 1) / 2) (by omega) (by omega)
      have h2 := ho ((i - 1) / 2) i hi (by omega)
      omega

theorem heap_insert_data (mem : Mem) (heap : Heap) (item : Nat) (hsz : heap.size < CAPACITY) :
    ∃ σ : Equiv.Perm Nat,
      (heap_insert mem heap item).1.data =
        (fun i => if i = heap.size then item else heap.data i) ∘ σ ∧
      (∀ i, heap.size < i → σ i = i) ∧
      (heap_insert mem heap item).1.size = heap.size + 1 ∧
      (heap_insert mem heap item).2 = none := by
  have hn : ¬ heap.size ≥ CAPACITY := by omega
  obtain ⟨σ, h1, h2⟩ := heapify_up_loop_perm mem heap.size
    ⟨heap.size, fun i => if i = heap.size then item else heap.data i⟩ heap.size
  refine ⟨σ, ?_, h2, ?_, ?_⟩
  · simp only [heap_insert, hn, if_false, heapify_up]
    exact h1
  · simp only [heap_insert, hn, if_false, heapify_up, heapify_up_loop_size]
  · simp only [heap_insert, hn, if_false]

theorem live_snoc (heap : Heap) (item : Nat) :
    (List.range (heap.size + 1)).map (fun i => if i = heap.size then item else heap.data i) =
      live heap ++ [item] := by
  rw [List.range_succ, List.map_append, live]
  congr 1
  · apply List.map_congr_left
    intro i hi
    have : i ≠ heap.size := by
      have := List.mem_range.1 hi
      omega
    simp [this]
  · simp

theorem heap_insert_live (mem : Mem) (heap : Heap) (item : Nat) (hsz : heap.size < CAPACITY) :
    List.Perm (live (heap_insert mem heap item).1) (item :: live heap) := by
  obtain ⟨σ, h1, h2, h3, _⟩ := heap_insert_data mem heap item hsz
  rw [live, h3, h1]
  refine (map_comp_perm _ σ (heap.size + 1) (fun i hi => h2 i (by omega))).trans ?_
  rw [live_snoc]
  exact List.perm_append_comm

theorem heap_insert_ordered (mem : Mem) (heap : Heap) (item : Nat) (hsz : heap.size < CAPACITY)
    (ho : heap_ordered mem heap) : heap_ordered mem (heap_insert mem heap item).1 := by
  have hn : ¬ heap.size ≥ CAPACITY := by omega
  rw [heap_ordered_iff]
  have hsize : (heap_insert mem heap item).1.size = heap.size + 1 :=
    (heap_insert_data mem heap item hsz).choose_spec.2.2.1
  rw [hsize]
  have hkey : key mem (heap_insert mem heap item).1 =
      key mem (heapify_up_loop mem heap.size
        ⟨heap.size, fun i => if i = heap.size then item else heap.data i⟩ heap.size) := by
    apply key_congr
    simp only [heap_insert, hn, if_false, heapify_up]
  rw [hkey]
  apply heapify_up_loop_ordered mem (heap.size + 1) heap.size _ heap.size (le_refl _) (by omega)
  refine ⟨?_, ?_⟩
  · intro p c hc hpc hne
    have h1 : ¬ c = heap.size := hne
    have h2 : ¬ p = heap.size := by omega
    simp only [key, h1, h2, if_false]
    exact ho p (by omega) c (by omega) hpc
  · intro g c hc hcj _
    omega

theorem heap_pop_data (mem : Mem) (heap : Heap) (hsz : 0 < heap.size) :
    ∃ σ : Equiv.Perm Nat,
      (heap_pop mem heap).1.data =
        (fun i => if i = 0 then heap.data (heap.size - 1) else heap.data i) ∘ σ ∧
      (∀ i, heap.size - 1 ≤ i → σ i = i) ∧
      (heap_pop mem heap).1.size = heap.size - 1 ∧
      (heap_pop mem heap).2 = some (heap.data 0) := by
  have hn : ¬ heap.size = 0 := by omega
  obtain ⟨σ, h1, h2⟩ := heapify_down_loop_perm mem (heap.size - 1)
    ⟨heap.size - 1, fun i => if i = 0 then heap.data (heap.size - 1) else heap.data i⟩ 0
  refine ⟨σ, ?_, fun i hi => h2 i (Or.inr hi), ?_, ?_⟩
  · simp only [heap_pop, hn, if_false, heapify_down]
    exact h1
  · simp only [heap_pop, hn, if_false, heapify_down, heapify_down_loop_size]
  · simp only [heap_pop, hn, if_false]

theorem live_pop (heap : Heap) (hsz : 0 < heap.size) :
    List.Perm (live heap)
      (heap.data 0 :: (List.range (heap.size - 1)).map
        (fun i => if i = 0 then heap.data (heap.size - 1) else heap.data i)) := by
  obtain ⟨m, hm⟩ : ∃ m, heap.size = m + 1 := ⟨heap.size - 1, by omega⟩
  rw [live, hm, Nat.add_sub_cancel]
  cases m with
  | zero => simp [List.range_succ]
  | succ m =>
    rw [@List.range_succ (m + 1), List.map_append]
    rw [List.range_succ_eq_map m]
    simp only [List.map_cons, List.map_map, List.map_nil, if_true]
    have hc : ((fun i => if i = 0 then heap.data (m + 1) else heap.data i) ∘ Nat.succ) =
        (heap.data ∘ Nat.succ) := by
      funext i
      simp
    rw [hc]
    simp only [List.cons_append]
    refine List.Perm.cons _ ?_
    exact List.perm_append_comm

theorem heap_pop_live (mem : Mem) (heap : Heap) (hsz : 0 < heap.size) :
    List.Perm (live heap) (heap.data 0 :: live (heap_pop mem heap).1) := by
  obtain ⟨σ, h1, h2, h3, _⟩ := heap_pop_data mem heap hsz
  refine (live_pop heap hsz).trans (List.Perm.cons _ ?_)
  rw [live, h3, h1]
  exact (map_comp_perm _ σ (heap.size - 1) h2).symm

theorem heap_pop_ordered (mem : Mem) (heap : Heap) (hsz : 0 < heap.size)
    (ho : heap_ordered mem heap) : heap_ordered mem (heap_pop mem heap).1 := by
  have hn : ¬ heap.size = 0 := by omega
  rw [heap_ordered_iff]
  have hsize : (heap_pop mem heap).1.size = heap.size - 1 :=
    (heap_pop_data mem heap hsz).choose_spec.2.2.1
  rw [hsize]
  have hkey : key mem (heap_pop mem heap).1 =
      key mem (heapify_down_loop mem (heap.size - 1)
        ⟨heap.size - 1, fun i => if i = 0 then heap.data (heap.size - 1) else heap.data i⟩ 0) := by
    apply key_congr
    simp only [heap_pop, hn, if_false, heapify_down]
  rw [hkey]
  apply heapify_down_loop_ordered mem (heap.size - 1)
    ⟨heap.size - 1, fun i => if i = 0 then heap.data (heap.size - 1) else heap.data i⟩ 0
  · simp only; omega
  · refine ⟨?_, ?_⟩
    · intro p c hc hpc hne
      simp only at hc
      have h1 : ¬ c = 0 := by omega
      have h2 : ¬ p = 0 := hne
      simp only [key, h1, h2, if_false]
      exact ho p (by omega) c (by omega) hpc
    · intro g c _ _ hg
      omega

/-! ## Lemmas on the root reschedule -/

theorem key_set_time (mem : Mem) (heap : Heap) (p : Nat) (t : Time) (i : Nat) :
    key (set_time mem p t) heap i =
      if heap.data i = p then t.absolute_sec else key mem heap i := by
  simp only [key, set_time, write_slot]
  split_ifs <;> rfl

theorem live_keys_set_time (mem : Mem) (heap : Heap) (t : Time) (hd : live_distinct heap) :
    live_keys (set_time mem (heap.data 0) t) heap = (live_keys mem heap).set 0 t.absolute_sec := by
  apply List.ext_getElem
  · simp [live_keys]
  · intro i h1 h2
    have hi : i < heap.size := by simpa [live_keys] using h1
    simp only [live_keys, List.getElem_map, List.getElem_range, List.getElem_set, key_set_time]
    by_cases h0 : i = 0
    · subst h0; simp
    · have hne : ¬ heap.data i = heap.data 0 := fun h => h0 (hd i hi 0 (by omega) h)
      have h0b : ¬ 0 = i := fun h => h0 h.symm
      simp only [hne, h0b, if_false]

theorem heapify_down_root_ordered (mem : Mem) (heap : Heap)
    (ho : ∀ p c, c < heap.size → (c = 2 * p + 1 ∨ c = 2 * p + 2) → p ≠ 0 →
      key mem heap p ≤ key mem heap c) :
    heap_ordered mem (heapify_down mem heap 0) := by
  rw [heap_ordered_iff]
  simp only [heapify_down, heapify_down_loop_size]
  apply heapify_down_loop_ordered mem heap.size heap 0 (by omega)
  exact ⟨ho, fun g c _ _ hg => by omega⟩

theorem heapify_down_live_keys (mem : Mem) (heap : Heap) (index : Nat) :
    List.Perm (live_keys mem (heapify_down mem heap index)) (live_keys mem heap) := by
  obtain ⟨σ, h1, h2⟩ := heapify_down_loop_perm mem heap.size heap index
  have hk : key mem (heapify_down mem heap index) = key mem heap ∘ σ := by
    funext i
    simp only [key, heapify_down, h1, Function.comp]
  simp only [live_keys, hk]
  simp only [heapify_down, heapify_down_loop_size]
  exact map_comp_perm _ σ heap.size (fun i hi => h2 i (Or.inr hi))

/-! ## Lemmas on registration and on runs of `heap_pop` -/

theorem register_valid (shm : Store) (c : Call) (hv : valid_call c)
    (hsz : shm.heap.size < CAPACITY) :
    ∃ slot : MySharedData, slot.time.absolute_sec = call_key c ∧
      register shm c =
        (⟨(heap_insert (write_slot shm.mem (shm.heap.data shm.heap.size) slot) shm.heap
            (shm.heap.data shm.heap.size)).1,
          write_slot shm.mem (shm.heap.data shm.heap.size) slot⟩, none) := by
  obtain ⟨hkind, hrange⟩ := hv
  split at hrange
  · rename_i hour minute second heq
    have hn : ¬ shm.heap.size ≥ CAPACITY := by omega
    have hk : ¬ (c_str (List.take 4 c.kind) ≠ "temp".data ∧
        c_str (List.take 4 c.kind) ≠ "absl".data) := by
      rintro ⟨h1, h2⟩
      rcases hkind with h | h
      · exact h1 h
      · exact h2 h
    have hr : ¬ (hour < 0 ∨ hour > 23 ∨ minute < 0 ∨ minute > 59 ∨ second < 0 ∨ second > 59) := by
      omega
    simp only [parsed_time] at heq
    refine ⟨⟨decide (c_str (List.take 4 c.kind) = "temp".data), c_str (List.take 8 c.time),
      c_str (List.take 255 c.message),
      event_time_of (decide (c_str (List.take 4 c.kind) = "temp".data)) c.now_tm
        hour minute second⟩, ?_, ?_⟩
    · simp only [call_key, parsed_time, heq, is_temp_call]
    · have hins := (heap_insert_data
        (write_slot shm.mem (shm.heap.data shm.heap.size)
          ⟨decide (c_str (List.take 4 c.kind) = "temp".data), c_str (List.take 8 c.time),
            c_str (List.take 255 c.message),
            event_time_of (decide (c_str (List.take 4 c.kind) = "temp".data)) c.now_tm
              hour minute second⟩)
        shm.heap (shm.heap.data shm.heap.size) hsz).choose_spec.2.2.2
      simp only [register, my_schedule, Option.isSome_some, Option.getD_some, true_and, hk,
        if_false, heq, hr, if_true, my_schedule_block, hn]
      rw [← hins]
  · exact absurd hrange id

theorem live_keys_eq_map (mem : Mem) (heap : Heap) :
    live_keys mem heap = (live heap).map (fun q => (mem q).time.absolute_sec) := by
  simp only [live_keys, live, List.map_map]
  rfl

theorem update_self (heap : Heap) :
    (fun i => if i = heap.size then heap.data heap.size else heap.data i) = heap.data := by
  funext i
  split_ifs with h
  · rw [h]
  · rfl

theorem key_write_other (mem : Mem) (heap : Heap) (slot : MySharedData)
    (hinj : Function.Injective heap.data) (i : Nat) (hi : i < heap.size) :
    key (write_slot mem (heap.data heap.size) slot) heap i = key mem heap i := by
  have hne : ¬ heap.data i = heap.data heap.size := fun h => by
    have := hinj h
    omega
  simp only [key, write_slot, hne, if_false]

theorem register_inv (shm : Store) (ks : List Int) (c : Call) (hinv : reg_inv shm ks)
    (hlen : ks.length < CAPACITY) (hv : valid_call c) :
    (register shm c).2 = none ∧ reg_inv (register shm c).1 (call_key c :: ks) := by
  have hsz : shm.heap.size < CAPACITY := by rw [hinv.size_eq]; exact hlen
  obtain ⟨slot, hkey, hreg⟩ := register_valid shm c hv hsz
  rw [hreg]
  refine ⟨rfl, ?_⟩
  obtain ⟨σ, h1, h2, h3, _⟩ := heap_insert_data
    (write_slot shm.mem (shm.heap.data shm.heap.size) slot) shm.heap
    (shm.heap.data shm.heap.size) hsz
  rw [update_self] at h1
  have hord : heap_ordered (write_slot shm.mem (shm.heap.data shm.heap.size) slot) shm.heap := by
    intro i hi c1 hc hic
    rw [key_write_other _ _ _ hinv.inj i hi, key_write_other _ _ _ hinv.inj c1 hc]
    exact hinv.ordered i hi c1 hc hic
  refine ⟨?_, ?_, ?_, ?_⟩
  · show (heap_insert _ shm.heap _).1.size = (call_key c :: ks).length
    rw [h3, hinv.size_eq, List.length_cons]
  · simp only [h1]
    exact hinv.inj.comp σ.injective
  · exact heap_insert_ordered _ _ _ hsz hord
  · simp only
    rw [live_keys_eq_map]
    refine ((heap_insert_live _ shm.heap (shm.heap.data shm.heap.size) hsz).map _).trans ?_
    simp only [List.map_cons, write_slot, if_true, hkey]
    refine List.Perm.cons _ ?_
    refine List.Perm.trans ?_ hinv.keys
    rw [live_keys, live, List.map_map]
    apply List.Perm.of_eq
    apply List.map_congr_left
    intro i hi
    have := key_write_other shm.mem shm.heap slot hinv.inj i (List.mem_range.1 hi)
    simpa [key, write_slot] using this

theorem register_all_inv :
    ∀ (calls : List Call) (shm : Store) (ks : List Int), reg_inv shm ks →
      ks.length + calls.length ≤ CAPACITY → (∀ c ∈ calls, valid_call c) →
      (register_all shm calls).2 = none ∧
      reg_inv (register_all shm calls).1 (calls.map call_key ++ ks) := by
  intro calls
  induction calls with
  | nil =>
    intro shm ks hinv _ _
    exact ⟨rfl, by simpa using hinv⟩
  | cons c cs ih =>
    intro shm ks hinv hlen hv
    simp only [List.length_cons] at hlen
    obtain ⟨h1, h2⟩ := register_inv shm ks c hinv (by omega) (hv c (List.mem_cons_self _ _))
    have hstep : register_all shm (c :: cs) = register_all (register shm c).1 cs := by
      rw [register_all]
      cases hr : register shm c with
      | mk s e =>
        rw [hr] at h1
        simp only at h1
        subst h1
        rfl
    rw [hstep]
    obtain ⟨h3, h4⟩ := ih (register shm c).1 (call_key c :: ks) h2
      (by simp only [List.length_cons]; omega)
      (fun c1 hc1 => hv c1 (List.mem_cons_of_mem _ hc1))
    refine ⟨h3, ?_⟩
    refine ⟨?_, h4.inj, h4.ordered, ?_⟩
    · rw [h4.size_eq]
      simp only [List.length_append, List.length_cons, List.length_map]
      omega
    · refine h4.keys.trans ?_
      simp only [List.map_cons, List.cons_append]
      exact List.perm_middle

theorem pop_all_sorted (mem : Mem) :
    ∀ (n : Nat) (heap : Heap), heap.size = n → heap_ordered mem heap →
      ∃ ptrs : List Nat, (pop_all mem n heap).2 = ptrs.map some ∧
        (pop_all mem n heap).1.size = 0 ∧ List.Perm ptrs (live heap) ∧
        List.Sorted (fun a b => a ≤ b) (ptrs.map (fun q => (mem q).time.absolute_sec)) := by
  intro n
  induction n with
  | zero =>
    intro heap hsz _
    refine ⟨[], rfl, hsz, ?_, ?_⟩
    · simp [live, hsz]
    · simp
  | succ n ih =>
    intro heap hsz ho
    have hpos : 0 < heap.size := by omega
    obtain ⟨_, h2, h3, h4⟩ := heap_pop_data mem heap hpos
    obtain ⟨ptrs, p1, p2, p3, p4⟩ := ih (heap_pop mem heap).1 (by omega)
      (heap_pop_ordered mem heap hpos ho)
    have hlive := heap_pop_live mem heap hpos
    refine ⟨heap.data 0 :: ptrs, ?_, ?_, ?_, ?_⟩
    · simp only [pop_all, p1, h4, List.map_cons]
    · simp only [pop_all, p2]
    · exact (List.Perm.cons _ p3).trans hlive.symm
    · simp only [List.map_cons, List.sorted_cons]
      refine ⟨?_, p4⟩
      intro b hb
      obtain ⟨q, hq, rfl⟩ := List.mem_map.1 hb
      have hq2 : q ∈ live heap := hlive.symm.subset (List.mem_cons_of_mem _ (p3.subset hq))
      obtain ⟨i, hi, rfl⟩ := List.mem_map.1 hq2
      exact ordered_root_min _ _ ((heap_ordered_iff mem heap).1 ho) i (List.mem_range.1 hi)

theorem call_key_range (c : Call) (hv : valid_call c) : 0 ≤ call_key c ∧ call_key c ≤ 86399 := by
  obtain ⟨_, hrange⟩ := hv
  split at hrange
  · rename_i hour minute second heq
    simp only [call_key, heq, event_time_of]
    split_ifs
    · simp only [add_offset, mktime, sec_of_tm]
      omega
    · simp only
      omega
  · exact absurd hrange id

theorem init_reg_inv : reg_inv InitializeSharedMemory [] :=
  ⟨rfl, fun _ _ h => h, fun _ hi => absurd hi (Nat.not_lt_zero _), List.Perm.refl _⟩

theorem register_all_then_pop (calls : List Call) (hlen : calls.length ≤ CAPACITY)
    (hvalid : ∀ c ∈ calls, valid_call c) :
    (register_all InitializeSharedMemory calls).2 = none ∧
    (register_all InitializeSharedMemory calls).1.heap.size = calls.length ∧
    (∀ c ∈ calls, 0 ≤ call_key c ∧ call_key c ≤ 86399) ∧
    ∃ ptrs : List Nat,
      (pop_all (register_all InitializeSharedMemory calls).1.mem calls.length
        (register_all InitializeSharedMemory calls).1.heap).2 = ptrs.map some ∧
      ptrs.length = calls.length ∧
      (pop_all (register_all InitializeSharedMemory calls).1.mem calls.length
        (register_all InitializeSharedMemory calls).1.heap).1.size = 0 ∧
      (↑(ptrs.map (fun q =>
          ((register_all InitializeSharedMemory calls).1.mem q).time.absolute_sec)) :
        Multiset Int) = ↑(calls.map call_key) ∧
      List.Sorted (fun a b => a ≤ b) (ptrs.map (fun q =>
          ((register_all InitializeSharedMemory calls).1.mem q).time.absolute_sec)) := by
  obtain ⟨h1, h2⟩ := register_all_inv calls InitializeSharedMemory [] init_reg_inv
    (by simpa using hlen) hvalid
  simp only [List.append_nil] at h2
  have hsize : (register_all InitializeSharedMemory calls).1.heap.size = calls.length := by
    rw [h2.size_eq, List.length_map]
  refine ⟨h1, hsize, fun c hc => call_key_range c (hvalid c hc), ?_⟩
  obtain ⟨ptrs, p1, p2, p3, p4⟩ := pop_all_sorted (register_all InitializeSharedMemory calls).1.mem
    calls.length (register_all InitializeSharedMemory calls).1.heap hsize h2.ordered
  refine ⟨ptrs, p1, ?_, p2, ?_, p4⟩
  · rw [p3.length_eq, live, List.length_map, List.length_range, hsize]
  · apply Multiset.coe_eq_coe.2
    refine (p3.map _).trans ?_
    rw [← live_keys_eq_map]
    exact h2.keys

theorem register_full (shm : Store) (c : Call) (hv : valid_call c)
    (hsz : shm.heap.size ≥ CAPACITY) :
    register shm c = (shm, some (Err.out_of_bounds shm.heap.size)) := by
  obtain ⟨hkind, hrange⟩ := hv
  split at hrange
  · rename_i hour minute second heq
    have hk : ¬ (c_str (List.take 4 c.kind) ≠ "temp".data ∧
        c_str (List.take 4 c.kind) ≠ "absl".data) := by
      rintro ⟨h1, h2⟩
      rcases hkind with h | h
      · exact h1 h
      · exact h2 h
    have hr : ¬ (hour < 0 ∨ hour > 23 ∨ minute < 0 ∨ minute > 59 ∨ second < 0 ∨ second > 59) := by
      omega
    simp only [parsed_time] at heq
    simp only [register, my_schedule, Option.isSome_some, Option.getD_some, true_and, hk,
      if_false, heq, hr, if_true, my_schedule_block, hsz]
  · exact absurd hrange id

/-! ## Lemmas on times of day -/

theorem add_offset_eq (now_tm : Tm) (h m s : Int) :
    add_offset now_tm h m s = time_after (sec_of_tm now_tm) (3600 * h + 60 * m + s) := by
  simp only [add_offset, mktime, sec_of_tm, time_after, Time.mk.injEq]
  refine ⟨?_, ?_, ?_, ?_⟩ <;> omega

theorem write_slot_same (mem : Mem) (p : Nat) (v : MySharedData) : write_slot mem p v p = v := by
  simp only [write_slot, if_true]

theorem digit_char_props (d : Nat) (h : d < 10) :
    isspace (digit_char d) = false ∧ isdigit (digit_char d) = true ∧
    digit_val (digit_char d) = d ∧ digit_char d ≠ Char.ofNat 0 ∧
    digit_char d ≠ '+' ∧ digit_char d ≠ '-' := by
  interval_cases d <;> decide

theorem scan_2d_two_digits (n : Nat) (h : n < 100) (rest : Text) :
    scan_2d (two_digits n ++ rest) = some ((n : Int), rest) := by
  obtain ⟨a1, a2, a3, _, a5, a6⟩ := digit_char_props (n / 10) (by omega)
  obtain ⟨_, b2, b3, _, _, _⟩ := digit_char_props (n % 10) (by omega)
  have hsp : ¬ isspace (digit_char (n / 10)) = true := by simp [a1]
  simp only [scan_2d, two_digits, List.cons_append, List.nil_append,
    List.dropWhile_cons_of_neg hsp, a5, a6, or_self, if_false, a2, if_true, b2, a3, b3,
    Option.some.injEq, Prod.mk.injEq, and_true]
  omega

theorem c_str_time_text (k : Nat) (h : k < 86400) : c_str (List.take 8 (time_text k)) = time_text k := by
  obtain ⟨_, _, _, a, _, _⟩ := digit_char_props (k / 3600 / 10) (by omega)
  obtain ⟨_, _, _, b, _, _⟩ := digit_char_props (k / 3600 % 10) (by omega)
  obtain ⟨_, _, _, c, _, _⟩ := digit_char_props (k / 60 % 60 / 10) (by omega)
  obtain ⟨_, _, _, d, _, _⟩ := digit_char_props (k / 60 % 60 % 10) (by omega)
  obtain ⟨_, _, _, e, _, _⟩ := digit_char_props (k % 60 / 10) (by omega)
  obtain ⟨_, _, _, f, _, _⟩ := digit_char_props (k % 60 % 10) (by omega)
  have hc : (':' : Char) ≠ Char.ofNat 0 := by decide
  simp [c_str, time_text, two_digits, List.takeWhile, a, b, c, d, e, f, hc]

theorem sscanf3_time_text (k : Nat) (h : k < 86400) :
    sscanf3 (time_text k) = [((k / 3600 : Nat) : Int), ((k / 60 % 60 : Nat) : Int),
      ((k % 60 : Nat) : Int)] := by
  have h1 := scan_2d_two_digits (k / 3600) (by omega)
    (':' :: (two_digits (k / 60 % 60) ++ ':' :: two_digits (k % 60)))
  have h2 := scan_2d_two_digits (k / 60 % 60) (by omega) (':' :: two_digits (k % 60))
  have h3 := scan_2d_two_digits (k % 60) (by omega) []
  rw [List.append_nil] at h3
  simp only [sscanf3, time_text, h1, h2, h3, ne_eq, not_true_eq_false, if_false]

theorem absl_of_key_valid (k : Int) (h0 : 0 ≤ k) (h1 : k ≤ 86399) :
    valid_call (absl_of_key k) ∧ call_key (absl_of_key k) = k := by
  have hk : k.toNat < 86400 := by omega
  have hp : parsed_time (absl_of_key k) =
      [((k.toNat / 3600 : Nat) : Int), ((k.toNat / 60 % 60 : Nat) : Int),
        ((k.toNat % 60 : Nat) : Int)] := by
    simp only [parsed_time, absl_of_key, c_str_time_text _ hk, sscanf3_time_text _ hk]
  have hkind : c_str (List.take 4 (absl_of_key k).kind) = "absl".data := by
    show c_str (List.take 4 "absl".data) = "absl".data
    decide
  refine ⟨⟨Or.inr hkind, ?_⟩, ?_⟩
  · rw [hp]
    simp only
    omega
  · have ht : is_temp_call (absl_of_key k) = false := by
      show decide (c_str (List.take 4 "absl".data) = "temp".data) = false
      decide
    simp only [call_key, hp, ht, event_time_of, Bool.false_eq_true, if_false]
    omega

/-! ## Lemmas on the control flow of `my_schedule` and of the worker iteration -/

theorem heap_insert_err (mem : Mem) (heap : Heap) (item : Nat) :
    (heap_insert mem heap item).2 = none ∨
      (heap_insert mem heap item).2 = some Err.heap_overflow := by
  unfold heap_insert
  split_ifs
  · exact Or.inr rfl
  · exact Or.inl rfl

theorem my_schedule_block_err (shm : Store) (now_tm : Tm) (buf_stat buf : Text)
    (string_message : Option Text) (hour minute second : Int) :
    (my_schedule_block shm now_tm buf_stat buf string_message hour minute second).2 ≠
        some Err.invalid_kind ∧
    (my_schedule_block shm now_tm buf_stat buf string_message hour minute second).2 ≠
        some Err.invalid_time := by
  unfold my_schedule_block
  by_cases hsz : shm.heap.size ≥ CAPACITY
  · simp only [hsz, if_true]
    exact ⟨by simp, by simp⟩
  · simp only [hsz, if_false]
    cases string_message with
    | none => exact ⟨by simp, by simp⟩
    | some msg =>
      simp only
      rcases heap_insert_err
        (write_slot shm.mem (shm.heap.data shm.heap.size)
          ⟨decide (buf_stat = "temp".data), buf, c_str (List.take 255 msg),
            event_time_of (decide (buf_stat = "temp".data)) now_tm hour minute second⟩)
        shm.heap (shm.heap.data shm.heap.size) with h | h
      · rw [h]; exact ⟨by simp, by simp⟩
      · rw [h]; exact ⟨by simp, by simp⟩
theorem my_schedule_cases (shm : Store) (now_tm : Tm)
    (string_status_event string_time string_message : Option Text) :
    (∃ e, my_schedule shm now_tm string_status_event string_time string_message = (shm, e)) ∨
    (∃ buf_stat buf hour minute second,
      my_schedule shm now_tm string_status_event string_time string_message =
        my_schedule_block shm now_tm buf_stat buf string_message hour minute second) := by
  unfold my_schedule
  dsimp only
  by_cases hk : string_status_event.isSome = true ∧
      c_str (List.take 4 (string_status_event.getD [])) ≠ "temp".data ∧
      c_str (List.take 4 (string_status_event.getD [])) ≠ "absl".data
  · rw [if_pos hk]
    exact Or.inl ⟨_, rfl⟩
  · rw [if_neg hk]
    cases string_time with
    | none => exact Or.inl ⟨_, rfl⟩
    | some t =>
      dsimp only
      split
      · split_ifs
        · exact Or.inl ⟨_, rfl⟩
        · exact Or.inr ⟨_, _, _, _, _, rfl⟩
        · exact Or.inl ⟨_, rfl⟩
      · exact Or.inl ⟨_, rfl⟩

theorem scan_locals_eq (string_time : Text) (junk : Int × Int × Int) (h m s : Int)
    (hparse : sscanf3 string_time = [h, m, s]) : scan_locals string_time junk = (h, m, s) := by
  simp only [scan_locals, hparse]

theorem main_iter_fire (shm : Store) (now_tm : Tm) (junk : Int × Int × Int)
    (hpos : 0 < shm.heap.size) (htemp : (shm.mem (shm.heap.data 0)).is_temp_event = true)
    (hdue : key shm.mem shm.heap 0 ≤ sec_of_tm now_tm) (h m s : Int)
    (hparse : sscanf3 (shm.mem (shm.heap.data 0)).string_time = [h, m, s]) :
    my_schedule_main_iter shm now_tm junk =
      (⟨heapify_down (set_time shm.mem (shm.heap.data 0) (add_offset now_tm h m s)) shm.heap 0,
          set_time shm.mem (shm.heap.data 0) (add_offset now_tm h m s)⟩,
        [log_line (shm.mem (shm.heap.data 0)).message]) := by
  have hne : shm.heap.size ≠ 0 := by omega
  have hdue1 : (shm.mem (shm.heap.data 0)).time.absolute_sec ≤ sec_of_tm now_tm := hdue
  simp only [my_schedule_main_iter, hne, ne_eq, not_false_eq_true, if_true, hdue1, htemp,
    scan_locals_eq _ junk h m s hparse]

theorem set_time_same (mem : Mem) (p : Nat) (t : Time) :
    set_time mem p t p = ⟨(mem p).is_temp_event, (mem p).string_time, (mem p).message, t⟩ := by
  simp only [set_time, write_slot, if_true]

theorem set_time_other (mem : Mem) (p q : Nat) (t : Time) (h : q ≠ p) :
    set_time mem p t q = mem q := by
  simp only [set_time, write_slot, h, if_false]

theorem register_slot (shm : Store) (c : Call) (hv : valid_call c)
    (hsz : shm.heap.size < CAPACITY) (h m s : Int) (hparse : parsed_time c = [h, m, s]) :
    register shm c =
      (⟨(heap_insert (write_slot shm.mem (shm.heap.data shm.heap.size) (slot_of_call c h m s))
            shm.heap (shm.heap.data shm.heap.size)).1,
          write_slot shm.mem (shm.heap.data shm.heap.size) (slot_of_call c h m s)⟩, none) := by
  obtain ⟨hkind, hrange⟩ := hv
  simp only [hparse] at hrange
  have hn : ¬ shm.heap.size ≥ CAPACITY := by omega
  have hk : ¬ (c_str (List.take 4 c.kind) ≠ "temp".data ∧
      c_str (List.take 4 c.kind) ≠ "absl".data) := by
    rintro ⟨h1, h2⟩
    rcases hkind with h | h
    · exact h1 h
    · exact h2 h
  have hr : ¬ (h < 0 ∨ h > 23 ∨ m < 0 ∨ m > 59 ∨ s < 0 ∨ s > 59) := by omega
  simp only [parsed_time] at hparse
  have hins := (heap_insert_data
      (write_slot shm.mem (shm.heap.data shm.heap.size) (slot_of_call c h m s))
      shm.heap (shm.heap.data shm.heap.size) hsz).choose_spec.2.2.2
  simp only [register, my_schedule, Option.isSome_some, Option.getD_some, true_and, hk,
    if_false, hparse, hr, if_true, my_schedule_block, hn]
  simp only [slot_of_call, is_temp_call] at hins ⊢
  rw [← hins]

theorem valid_call_parsed (c : Call) (hv : valid_call c) :
    ∃ h m s, parsed_time c = [h, m, s] ∧
      0 ≤ h ∧ h ≤ 23 ∧ 0 ≤ m ∧ m ≤ 59 ∧ 0 ≤ s ∧ s ≤ 59 := by
  obtain ⟨_, hrange⟩ := hv
  split at hrange
  · rename_i h m s heq
    exact ⟨h, m, s, heq, hrange⟩
  · exact absurd hrange id

theorem main_iter_fire_any (shm : Store) (now_tm : Tm) (junk : Int × Int × Int)
    (hpos : 0 < shm.heap.size) (htemp : (shm.mem (shm.heap.data 0)).is_temp_event = true)
    (hdue : key shm.mem shm.heap 0 ≤ sec_of_tm now_tm) :
    ∃ h m s, my_schedule_main_iter shm now_tm junk =
      (⟨heapify_down (set_time shm.mem (shm.heap.data 0) (add_offset now_tm h m s)) shm.heap 0,
          set_time shm.mem (shm.heap.data 0) (add_offset now_tm h m s)⟩,
        [log_line (shm.mem (shm.heap.data 0)).message]) := by
  have hne : shm.heap.size ≠ 0 := by omega
  have hdue1 : (shm.mem (shm.heap.data 0)).time.absolute_sec ≤ sec_of_tm now_tm := hdue
  refine ⟨(scan_locals (shm.mem (shm.heap.data 0)).string_time junk).1,
    (scan_locals (shm.mem (shm.heap.data 0)).string_time junk).2.1,
    (scan_locals (shm.mem (shm.heap.data 0)).string_time junk).2.2, ?_⟩
  simp only [my_schedule_main_iter, hne, ne_eq, not_false_eq_true, if_true, hdue1, htemp]

theorem main_iter_due_log (shm : Store) (now_tm : Tm) (junk : Int × Int × Int)
    (hpos : 0 < shm.heap.size) (hdue : key shm.mem shm.heap 0 ≤ sec_of_tm now_tm) :
    (my_schedule_main_iter shm now_tm junk).2 = [log_line (shm.mem (shm.heap.data 0)).message] := by
  have hne : shm.heap.size ≠ 0 := by omega
  have hdue1 : (shm.mem (shm.heap.data 0)).time.absolute_sec ≤ sec_of_tm now_tm := hdue
  simp only [my_schedule_main_iter, hne, ne_eq, not_false_eq_true, if_true, hdue1]
  split_ifs <;> rfl

theorem heapify_down_size (mem : Mem) (heap : Heap) (index : Nat) :
    (heapify_down mem heap index).size = heap.size := by
  simp only [heapify_down, heapify_down_loop_size]

/-! ## Lemmas on reachable stores -/

theorem add_offset_ok (now_tm : Tm) (h m s : Int) : time_ok (add_offset now_tm h m s) := by
  simp only [time_ok, add_offset, mktime, sec_of_tm]
  omega

theorem event_time_ok (is_temp : Bool) (now_tm : Tm) (h m s : Int)
    (hr : 0 ≤ h ∧ h ≤ 23 ∧ 0 ≤ m ∧ m ≤ 59 ∧ 0 ≤ s ∧ s ≤ 59) :
    time_ok (event_time_of is_temp now_tm h m s) := by
  unfold event_time_of
  split_ifs
  · exact add_offset_ok now_tm h m s
  · simp only [time_ok]
    omega

theorem my_schedule_mem (shm : Store) (now_tm : Tm)
    (string_status_event string_time string_message : Option Text) :
    (my_schedule shm now_tm string_status_event string_time string_message).1.mem = shm.mem ∨
    ∃ (p : Nat) (v : MySharedData),
      (my_schedule shm now_tm string_status_event string_time string_message).1.mem =
        write_slot shm.mem p v ∧ time_ok v.time ∨
      ((my_schedule shm now_tm string_status_event string_time string_message).1.mem =
        write_slot shm.mem p v ∧ v.time = (shm.mem p).time) := by
  unfold my_schedule
  dsimp only
  by_cases hk : string_status_event.isSome = true ∧
      c_str (List.take 4 (string_status_event.getD [])) ≠ "temp".data ∧
      c_str (List.take 4 (string_status_event.getD [])) ≠ "absl".data
  · rw [if_pos hk]
    exact Or.inl rfl
  · rw [if_neg hk]
    cases string_time with
    | none => exact Or.inl rfl
    | some t =>
      dsimp only
      split
      · rename_i hour minute second _
        by_cases hr : hour < 0 ∨ hour > 23 ∨ minute < 0 ∨ minute > 59 ∨ second < 0 ∨ second > 59
        · rw [if_pos hr]
          exact Or.inl rfl
        · rw [if_neg hr]
          split_ifs
          · unfold my_schedule_block
            dsimp only
            split_ifs
            · exact Or.inl rfl
            · cases string_message with
              | none => exact Or.inr ⟨_, _, Or.inr ⟨rfl, rfl⟩⟩
              | some msg =>
                refine Or.inr ⟨_, _, Or.inl ⟨rfl, ?_⟩⟩
                exact event_time_ok _ _ _ _ _ (by omega)
          · exact Or.inl rfl
      · exact Or.inl rfl

theorem main_iter_mem (shm : Store) (now_tm : Tm) (junk : Int × Int × Int) :
    (my_schedule_main_iter shm now_tm junk).1.mem = shm.mem ∨
    ∃ h m s, (my_schedule_main_iter shm now_tm junk).1.mem =
      set_time shm.mem (shm.heap.data 0) (add_offset now_tm h m s) := by
  unfold my_schedule_main_iter
  dsimp only
  split_ifs
  · exact Or.inr ⟨_, _, _, rfl⟩
  · exact Or.inl rfl
  · exact Or.inl rfl
  · exact Or.inl rfl

theorem reachable_slots_ok (shm : Store) (hr : Reachable shm) :
    ∀ p, time_ok (shm.mem p).time := by
  induction hr with
  | init =>
    intro p
    simp only [InitializeSharedMemory, time_ok]
    omega
  | call shm now_tm kind time message _ ih =>
    intro q
    rcases my_schedule_mem shm now_tm kind time message with h | ⟨p, v, ⟨h, hv⟩ | ⟨h, hv⟩⟩
    · rw [h]; exact ih q
    · rw [h]
      simp only [write_slot]
      split_ifs
      · exact hv
      · exact ih q
    · rw [h]
      simp only [write_slot]
      split_ifs
      · rw [hv]; exact ih p
      · exact ih q
  | iterate shm now_tm junk _ ih =>
    intro q
    rcases main_iter_mem shm now_tm junk with h | ⟨h1, m1, s1, h⟩
    · rw [h]; exact ih q
    · rw [h]
      simp only [set_time, write_slot]
      split_ifs
      · exact add_offset_ok now_tm h1 m1 s1
      · exact ih q

/-! ## Lemmas on the distinctness of the pointers -/

theorem perm_lt (σ : Equiv.Perm Nat) (n : Nat) (hfix : ∀ i, n ≤ i → σ i = i) :
    ∀ y, y < n → σ y < n := by
  intro y hy
  by_contra hcon
  have h1 : σ (σ y) = σ y := hfix _ (by omega)
  have h2 : σ y = y := σ.injective h1
  omega

theorem perm_lt_capacity (σ : Equiv.Perm Nat) (n : Nat) (hn : n ≤ CAPACITY)
    (hfix : ∀ i, n ≤ i → σ i = i) : ∀ y, y < CAPACITY → σ y < CAPACITY := by
  intro y hy
  by_cases h : y < n
  · have := perm_lt σ n hfix y h
    omega
  · rw [hfix y (by omega)]
    exact hy

theorem data_distinct_comp (heap heap1 : Heap) (σ : Equiv.Perm Nat) (n : Nat)
    (hn : n ≤ CAPACITY) (hfix : ∀ i, n ≤ i → σ i = i) (hdata : heap1.data = heap.data ∘ σ)
    (hd : data_distinct heap) : data_distinct heap1 := by
  intro i hi j hj hij
  rw [hdata] at hij
  have := hd (σ i) (perm_lt_capacity σ n hn hfix i hi) (σ j) (perm_lt_capacity σ n hn hfix j hj) hij
  exact σ.injective this

theorem heapify_up_distinct (mem : Mem) (heap : Heap) (index : Nat) (hi : index < CAPACITY)
    (hd : data_distinct heap) : data_distinct (heapify_up mem heap index) := by
  obtain ⟨σ, h1, h2⟩ := heapify_up_loop_perm mem index heap index
  exact data_distinct_comp heap _ σ (index + 1) (by omega) (fun i hi => h2 i (by omega)) h1 hd

theorem heapify_down_distinct (mem : Mem) (heap : Heap) (index : Nat) (hs : heap.size ≤ CAPACITY)
    (hd : data_distinct heap) : data_distinct (heapify_down mem heap index) := by
  obtain ⟨σ, h1, h2⟩ := heapify_down_loop_perm mem heap.size heap index
  exact data_distinct_comp heap _ σ heap.size hs (fun i hi => h2 i (Or.inr hi)) h1 hd

theorem my_schedule_distinct (shm : Store) (now_tm : Tm)
    (string_status_event string_time string_message : Option Text)
    (hd : data_distinct shm.heap) :
    data_distinct (my_schedule shm now_tm string_status_event string_time string_message).1.heap := by
  rcases my_schedule_cases shm now_tm string_status_event string_time string_message with
    ⟨e, he⟩ | ⟨bs, b, h, m, s, hb⟩
  · rw [he]; exact hd
  · rw [hb]
    unfold my_schedule_block
    dsimp only
    split_ifs with hsz
    · exact hd
    · cases string_message with
      | none => exact hd
      | some msg =>
        dsimp only
        obtain ⟨σ, h1, h2, _, _⟩ := heap_insert_data
          (write_slot shm.mem (shm.heap.data shm.heap.size)
            ⟨decide (bs = "temp".data), b, c_str (List.take 255 msg),
              event_time_of (decide (bs = "temp".data)) now_tm h m s⟩)
          shm.heap (shm.heap.data shm.heap.size) (by omega)
        rw [update_self] at h1
        exact data_distinct_comp shm.heap _ σ (shm.heap.size + 1) (by omega)
          (fun i hi => h2 i (by omega)) h1 hd

theorem heap_pop_alias (mem : Mem) (heap : Heap) (h2 : 2 ≤ heap.size)
    (hs : heap.size ≤ CAPACITY) (hd : data_distinct heap) :
    (∃ j, j < (heap_pop mem heap).1.size ∧
      (heap_pop mem heap).1.data j = (heap_pop mem heap).1.data (heap_pop mem heap).1.size ∧
      ∀ j1, j1 < (heap_pop mem heap).1.size →
        (heap_pop mem heap).1.data j1 = (heap_pop mem heap).1.data (heap_pop mem heap).1.size →
        j1 = j) ∧
    (∀ i, i < CAPACITY → (heap_pop mem heap).1.data i ≠ heap.data 0) := by
  obtain ⟨σ, hdata, hfix, hsize, _⟩ := heap_pop_data mem heap (by omega)
  have hlt := perm_lt σ (heap.size - 1) hfix
  have hlast : (heap_pop mem heap).1.data (heap.size - 1) = heap.data (heap.size - 1) := by
    rw [hdata]
    have hne : ¬ heap.size - 1 = 0 := by omega
    simp only [Function.comp, hfix (heap.size - 1) (le_refl _), hne, if_false]
  rw [hsize, hlast]
  refine ⟨⟨σ.symm 0, ?_, ?_, ?_⟩, ?_⟩
  · by_contra hcon
    have h1 : σ (σ.symm 0) = σ.symm 0 := hfix _ (by omega)
    rw [Equiv.apply_symm_apply] at h1
    omega
  · rw [hdata]
    simp only [Function.comp, Equiv.apply_symm_apply, if_true]
  · intro j1 hj1 heq
    rw [hdata] at heq
    simp only [Function.comp] at heq
    have hj1lt := hlt j1 hj1
    by_cases h0 : σ j1 = 0
    · rw [← h0, Equiv.symm_apply_apply]
    · exfalso
      simp only [h0, if_false] at heq
      have := hd (σ j1) (by omega) (heap.size - 1) (by omega) heq
      omega
  · intro i hi heq
    rw [hdata] at heq
    simp only [Function.comp] at heq
    have hσi : σ i < CAPACITY := perm_lt_capacity σ (heap.size - 1) (by omega) hfix i hi
    by_cases h0 : σ i = 0
    · simp only [h0, if_true] at heq
      have := hd (heap.size - 1) (by omega) 0 (by omega) heq
      omega
    · simp only [h0, if_false] at heq
      exact h0 (hd (σ i) hσi 0 (by omega) heq)

theorem heap_pop_single (mem : Mem) (heap : Heap) (h1 : heap.size = 1) :
    (heap_pop mem heap).1.data = heap.data := by
  obtain ⟨σ, hdata, hfix, _, _⟩ := heap_pop_data mem heap (by omega)
  rw [hdata]
  funext i
  have hi : σ i = i := hfix i (by omega)
  simp only [Function.comp, hi, h1, Nat.sub_self]
  split_ifs with h
  · rw [h]
  · rfl

theorem init_distinct : data_distinct InitializeSharedMemory.heap :=
  fun _ _ _ _ h => h

theorem after_four_distinct : data_distinct after_four.heap :=
  my_schedule_distinct _ noon (some "absl".data) (some "00:00:04".data) (some "m".data)
    (my_schedule_distinct _ noon (some "absl".data) (some "00:00:03".data) (some "m".data)
      (my_schedule_distinct _ noon (some "absl".data) (some "00:00:02".data) (some "m".data)
        (my_schedule_distinct _ noon (some "absl".data) (some "00:00:01".data) (some "m".data)
          init_distinct)))

/-! ## Lemmas on the instrumented sift loops -/

theorem heapify_up_run_heap (mem : Mem) :
    ∀ (fuel : Nat) (heap : Heap) (index : Nat),
      (heapify_up_run mem fuel heap index).heap = heapify_up_loop mem fuel heap index := by
  intro fuel
  induction fuel with
  | zero => intro heap index; rfl
  | succ fuel ih =>
    intro heap index
    simp only [heapify_up_run, heapify_up_loop]
    split_ifs
    · exact ih _ _
    · rfl
    · rfl

theorem heapify_down_run_heap (mem : Mem) :
    ∀ (fuel : Nat) (heap : Heap) (index : Nat),
      (heapify_down_run mem fuel heap index).heap = heapify_down_loop mem fuel heap index := by
  intro fuel
  induction fuel with
  | zero => intro heap index; rfl
  | succ fuel ih =>
    intro heap index
    simp only [heapify_down_run, heapify_down_loop]
    split_ifs
    · exact ih _ _
    · rfl

theorem heapify_up_run_fuel (mem : Mem) :
    ∀ (f1 f2 : Nat) (heap : Heap) (index : Nat), index ≤ f1 → index ≤ f2 →
      heapify_up_run mem f1 heap index = heapify_up_run mem f2 heap index := by
  intro f1
  induction f1 with
  | zero =>
    intro f2 heap index h1 _
    have h0 : index = 0 := by omega
    subst h0
    cases f2 <;> simp [heapify_up_run]
  | succ f1 ih =>
    intro f2 heap index h1 h2
    cases f2 with
    | zero =>
      have h0 : index = 0 := by omega
      subst h0
      simp [heapify_up_run]
    | succ f2 =>
      simp only [heapify_up_run]
      split_ifs with hpos hlt
      · rw [ih f2 _ _ (by omega) (by omega)]
      · rfl
      · rfl

theorem down_reads_beyond (mem : Mem) (heap : Heap) (index : Nat) (h : heap.size ≤ index) :
    down_reads mem heap index = [] := by
  have h1 : ¬ 2 * index + 1 < heap.size := by omega
  have h2 : ¬ 2 * index + 2 < heap.size := by omega
  simp only [down_reads, h1, h2, if_false, List.append_nil]

theorem heapify_down_run_fuel (mem : Mem) :
    ∀ (f1 f2 : Nat) (heap : Heap) (index : Nat), heap.size ≤ index + f1 →
      heap.size ≤ index + f2 →
      heapify_down_run mem f1 heap index = heapify_down_run mem f2 heap index := by
  intro f1
  induction f1 with
  | zero =>
    intro f2 heap index h1 _
    have hs := smallest_of_beyond mem heap index (by omega)
    have hr := down_reads_beyond mem heap index (by omega)
    cases f2 <;> simp [heapify_down_run, hs, hr]
  | succ f1 ih =>
    intro f2 heap index h1 h2
    cases f2 with
    | zero =>
      have hs := smallest_of_beyond mem heap index (by omega)
      have hr := down_reads_beyond mem heap index (by omega)
      simp [heapify_down_run, hs, hr]
    | succ f2 =>
      simp only [heapify_down_run]
      rcases smallest_of_cases mem heap index with ⟨hs, _, _⟩ | ⟨hs, hlt, _, _⟩ | ⟨hs, hlt, _, _⟩
      · simp only [hs, ne_eq, not_true_eq_false, if_false]
      · have hne : 2 * index + 1 ≠ index := by omega
        simp only [hs, ne_eq, hne, not_false_eq_true, if_true]
        rw [ih f2 _ _ (by simp only; omega) (by simp only; omega)]
      · have hne : 2 * index + 2 ≠ index := by omega
        simp only [hs, ne_eq, hne, not_false_eq_true, if_true]
        rw [ih f2 _ _ (by simp only; omega) (by simp only; omega)]

theorem heapify_up_run_swaps (mem : Mem) :
    ∀ (fuel k : Nat) (heap : Heap) (index : Nat), index + 1 < 2 ^ (k + 1) →
      (heapify_up_run mem fuel heap index).swaps ≤ k := by
  intro fuel
  induction fuel with
  | zero => intro k heap index _; exact Nat.zero_le _
  | succ fuel ih =>
    intro k heap index hk
    simp only [heapify_up_run]
    split_ifs with hpos hlt
    · cases k with
      | zero =>
        simp only [zero_add, pow_one] at hk
        omega
      | succ k =>
        have hp : (index - 1) / 2 + 1 < 2 ^ (k + 1) := by
          rw [pow_succ] at hk
          omega
        have := ih k ⟨heap.size, swap heap.data index ((index - 1) / 2)⟩ ((index - 1) / 2) hp
        simp only
        omega
    · exact Nat.zero_le _
    · exact Nat.zero_le _

theorem heapify_down_run_swaps (mem : Mem) :
    ∀ (fuel k : Nat) (heap : Heap) (index : Nat), heap.size < (index + 1) * 2 ^ (k + 1) →
      (heapify_down_run mem fuel heap index).swaps ≤ k := by
  intro fuel
  induction fuel with
  | zero => intro k heap index _; exact Nat.zero_le _
  | succ fuel ih =>
    intro k heap index hk
    simp only [heapify_down_run]
    have hstep : ∀ s, (s = 2 * index + 1 ∨ s = 2 * index + 2) → s < heap.size →
        (heapify_down_run mem fuel ⟨heap.size, swap heap.data index s⟩ s).swaps + 1 ≤ k := by
      intro s hs hlt
      cases k with
      | zero =>
        simp only [zero_add, pow_one] at hk
        omega
      | succ k =>
        have hp : heap.size < (s + 1) * 2 ^ (k + 1) := by
          calc heap.size < (index + 1) * 2 ^ (k + 1 + 1) := hk
            _ = (2 * (index + 1)) * 2 ^ (k + 1) := by rw [pow_succ]; ring
            _ ≤ (s + 1) * 2 ^ (k + 1) := Nat.mul_le_mul_right _ (by omega)
        have := ih k ⟨heap.size, swap heap.data index s⟩ s hp
        omega
    rcases smallest_of_cases mem heap index with ⟨hs, _, _⟩ | ⟨hs, hlt, _, _⟩ | ⟨hs, hlt, _, _⟩
    · simp only [hs, ne_eq, not_true_eq_false, if_false]
      exact Nat.zero_le _
    · have hne : 2 * index + 1 ≠ index := by omega
      simp only [hs, ne_eq, hne, not_false_eq_true, if_true]
      exact hstep _ (Or.inl rfl) hlt
    · have hne : 2 * index + 2 ≠ index := by omega
      simp only [hs, ne_eq, hne, not_false_eq_true, if_true]
      exact hstep _ (Or.inr rfl) hlt

theorem heapify_up_run_indices (mem : Mem) :
    ∀ (fuel : Nat) (heap : Heap) (index : Nat),
      ∀ i ∈ (heapify_up_run mem fuel heap index).indices, i ≤ index := by
  intro fuel
  induction fuel with
  | zero => intro heap index i hi; simp [heapify_up_run] at hi
  | succ fuel ih =>
    intro heap index i hi
    simp only [heapify_up_run] at hi
    split_ifs at hi with hpos hlt
    · simp only [List.cons_append, List.nil_append, List.mem_cons] at hi
      rcases hi with h | h | h | h | h
      · omega
      · omega
      · omega
      · omega
      · have := ih _ _ i h
        omega
    · simp only [List.mem_cons, List.mem_singleton, List.not_mem_nil, or_false] at hi
      omega
    · simp at hi

theorem down_reads_lt (mem : Mem) (heap : Heap) (index : Nat) (hidx : index < heap.size) :
    ∀ i ∈ down_reads mem heap index, i < heap.size := by
  intro i hi
  simp only [down_reads] at hi
  rw [List.mem_append] at hi
  rcases hi with h | h
  · split_ifs at h with h1
    · simp only [List.mem_cons, List.mem_singleton, List.not_mem_nil, or_false] at h
      omega
    · simp at h
  · split_ifs at h <;>
      first
      | (simp only [List.mem_cons, List.mem_singleton, List.not_mem_nil, or_false] at h; omega)
      | simp at h

theorem heapify_down_run_indices (mem : Mem) :
    ∀ (fuel : Nat) (heap : Heap) (index : Nat), index < heap.size →
      ∀ i ∈ (heapify_down_run mem fuel heap index).indices, i < heap.size := by
  intro fuel
  induction fuel with
  | zero => intro heap index _ i hi; simp [heapify_down_run] at hi
  | succ fuel ih =>
    intro heap index hidx i hi
    simp only [heapify_down_run] at hi
    have hstep : ∀ s, s < heap.size →
        i ∈ down_reads mem heap index ++ [index, s] ++
          (heapify_down_run mem fuel ⟨heap.size, swap heap.data index s⟩ s).indices →
        i < heap.size := by
      intro s hs hmem
      simp only [List.mem_append, List.mem_cons, List.mem_singleton, List.not_mem_nil,
        or_false] at hmem
      rcases hmem with (h | h | h) | h
      · exact down_reads_lt mem heap index hidx i h
      · omega
      · omega
      · exact ih ⟨heap.size, swap heap.data index s⟩ s hs i h
    rcases smallest_of_cases mem heap index with ⟨hs, _, _⟩ | ⟨hs, hlt, _, _⟩ | ⟨hs, hlt, _, _⟩
    · simp only [hs, ne_eq, not_true_eq_false, if_false] at hi
      exact down_reads_lt mem heap index hidx i hi
    · have hne : 2 * index + 1 ≠ index := by omega
      simp only [hs, ne_eq, hne, not_false_eq_true, if_true] at hi
      exact hstep _ hlt hi
    · have hne : 2 * index + 2 ≠ index := by omega
      simp only [hs, ne_eq, hne, not_false_eq_true, if_true] at hi
      exact hstep _ hlt hi

theorem heapify_up_live (mem : Mem) (heap : Heap) (index : Nat) (hi : index < heap.size) :
    (heapify_up mem heap index).size = heap.size ∧
    List.Perm (live (heapify_up mem heap index)) (live heap) ∧
    ∀ i, heap.size ≤ i → (heapify_up mem heap index).data i = heap.data i := by
  obtain ⟨σ, h1, h2⟩ := heapify_up_loop_perm mem index heap index
  have hsize : (heapify_up mem heap index).size = heap.size := by
    simp only [heapify_up, heapify_up_loop_size]
  refine ⟨hsize, ?_, ?_⟩
  · rw [live, hsize]
    simp only [heapify_up, h1]
    exact map_comp_perm _ σ heap.size (fun i hi1 => h2 i (by omega))
  · intro i hi1
    simp only [heapify_up, h1, Function.comp, h2 i (by omega)]

theorem heapify_down_live (mem : Mem) (heap : Heap) (index : Nat) :
    (heapify_down mem heap index).size = heap.size ∧
    List.Perm (live (heapify_down mem heap index)) (live heap) ∧
    ∀ i, heap.size ≤ i → (heapify_down mem heap index).data i = heap.data i := by
  obtain ⟨σ, h1, h2⟩ := heapify_down_loop_perm mem heap.size heap index
  have hsize : (heapify_down mem heap index).size = heap.size := heapify_down_size _ _ _
  refine ⟨hsize, ?_, ?_⟩
  · rw [live, hsize]
    simp only [heapify_down, h1]
    exact map_comp_perm _ σ heap.size (fun i hi1 => h2 i (Or.inr hi1))
  · intro i hi1
    simp only [heapify_down, h1, Function.comp, h2 i (Or.inr hi1)]

/-! ## Lemmas on the effect traces -/

theorem block_trace_lock (shm : Store) (buf_stat : Text) (string_message : Option Text) :
    io_outside_except [Effect.clock 257, Effect.clock 258]
      (my_schedule_block_trace shm buf_stat string_message) ∧
    sleep_outside (my_schedule_block_trace shm buf_stat string_message) ∧
    access_inside (my_schedule_block_trace shm buf_stat string_message) := by
  unfold my_schedule_block_trace
  by_cases hsz : shm.heap.size ≥ CAPACITY
  · rw [if_pos hsz]
    decide
  · rw [if_neg hsz]
    cases string_message with
    | none =>
      dsimp only
      decide
    | some msg =>
      dsimp only
      by_cases ht : buf_stat = "temp".data
      · rw [if_pos ht]
        decide
      · rw [if_neg ht]
        decide

theorem my_schedule_trace_cases (shm : Store)
    (string_status_event string_time string_message : Option Text) :
    my_schedule_trace shm string_status_event string_time string_message = [] ∨
    (∃ l, my_schedule_trace shm string_status_event string_time string_message =
      [Effect.error l]) ∨
    (∃ buf_stat, my_schedule_trace shm string_status_event string_time string_message =
      my_schedule_block_trace shm buf_stat string_message) := by
  unfold my_schedule_trace
  dsimp only
  by_cases hk : string_status_event.isSome = true ∧
      c_str (List.take 4 (string_status_event.getD [])) ≠ "temp".data ∧
      c_str (List.take 4 (string_status_event.getD [])) ≠ "absl".data
  · rw [if_pos hk]
    exact Or.inr (Or.inl ⟨_, rfl⟩)
  · rw [if_neg hk]
    cases string_time with
    | none => exact Or.inl rfl
    | some t =>
      dsimp only
      split
      · split_ifs
        · exact Or.inr (Or.inl ⟨_, rfl⟩)
        · exact Or.inr (Or.inr ⟨_, rfl⟩)
        · exact Or.inl rfl
      · exact Or.inr (Or.inl ⟨_, rfl⟩)

theorem my_schedule_trace_lock (shm : Store)
    (string_status_event string_time string_message : Option Text) :
    io_outside_except [Effect.clock 257, Effect.clock 258]
      (my_schedule_trace shm string_status_event string_time string_message) ∧
    sleep_outside (my_schedule_trace shm string_status_event string_time string_message) ∧
    access_inside (my_schedule_trace shm string_status_event string_time string_message) := by
  rcases my_schedule_trace_cases shm string_status_event string_time string_message with
    h | ⟨l, h⟩ | ⟨b, h⟩
  · rw [h]; decide
  · rw [h]
    refine ⟨?_, ?_, ?_⟩
    · intro x hx hio
      simp only [with_lock, List.mem_singleton] at hx
      subst hx
      simp [is_io] at hio
    · intro x hx hio
      simp only [with_lock, List.mem_singleton] at hx
      subst hx
      simp [is_sleep] at hio
    · intro x hx hio
      simp only [with_lock, List.mem_singleton] at hx
      subst hx
      simp [is_access] at hio
  · rw [h]; exact block_trace_lock shm b string_message

theorem main_trace_lock (shm : Store) (now_tm : Tm) :
    io_outside_except [Effect.log 311] (my_schedule_main_trace shm now_tm) ∧
    sleep_outside (my_schedule_main_trace shm now_tm) ∧
    access_inside (my_schedule_main_trace shm now_tm) := by
  unfold my_schedule_main_trace
  split_ifs <;> decide

/-! ## Lemmas on `mktime` across a daylight-saving change -/

theorem add_offset_dst_zero (now_tm : Tm) (h m s : Int) :
    add_offset_dst 0 now_tm h m s = add_offset now_tm h m s := by
  simp only [add_offset_dst, mktime_dst, add_offset, add_zero]

theorem main_iter_dst_zero (shm : Store) (now_tm : Tm) (junk : Int × Int × Int) :
    my_schedule_main_iter_dst 0 shm now_tm junk = my_schedule_main_iter shm now_tm junk := by
  simp only [my_schedule_main_iter_dst, my_schedule_main_iter, add_offset_dst_zero]

theorem add_offset_dst_eq (shift : Int) (now_tm : Tm) (h m s : Int) :
    add_offset_dst shift now_tm h m s =
      time_after (sec_of_tm now_tm) (3600 * h + 60 * m + s + shift) := by
  simp only [add_offset_dst, mktime_dst, mktime, sec_of_tm, time_after, Time.mk.injEq]
  refine ⟨?_, ?_, ?_, ?_⟩ <;> omega

theorem main_iter_dst_fire (shift : Int) (shm : Store) (now_tm : Tm) (junk : Int × Int × Int)
    (hpos : 0 < shm.heap.size) (htemp : (shm.mem (shm.heap.data 0)).is_temp_event = true)
    (hdue : key shm.mem shm.heap 0 ≤ sec_of_tm now_tm) (h m s : Int)
    (hparse : sscanf3 (shm.mem (shm.heap.data 0)).string_time = [h, m, s]) :
    my_schedule_main_iter_dst shift shm now_tm junk =
      (⟨heapify_down (set_time shm.mem (shm.heap.data 0) (add_offset_dst shift now_tm h m s))
            shm.heap 0,
          set_time shm.mem (shm.heap.data 0) (add_offset_dst shift now_tm h m s)⟩,
        [log_line (shm.mem (shm.heap.data 0)).message]) := by
  have hne : shm.heap.size ≠ 0 := by omega
  have hdue1 : (shm.mem (shm.heap.data 0)).time.absolute_sec ≤ sec_of_tm now_tm := hdue
  simp only [my_schedule_main_iter_dst, hne, ne_eq, not_false_eq_true, if_true, hdue1, htemp,
    scan_locals_eq _ junk h m s hparse]

theorem main_iter_dst_log (shift : Int) (shm : Store) (now_tm : Tm) (junk : Int × Int × Int) :
    (my_schedule_main_iter_dst shift shm now_tm junk).2 =
      (my_schedule_main_iter shm now_tm junk).2 := by
  unfold my_schedule_main_iter_dst my_schedule_main_iter
  dsimp only
  split_ifs <;> rfl

/-! ## The claims -/

/-- C1 (failing run): four registrations with keys 1, 2, 3, 4, one `heap_pop` and
one registration with key 0, none at `size = 100` and none raising an error,
leave the live keys `[2, 0, 3, 0]`, which are not in min-heap order. -/
theorem heap_order_lost_after_pop :
    (register_all InitializeSharedMemory four_calls).2 = none ∧
    after_pop.heap.size = 3 ∧
    (register after_pop (absl_call "00:00:00")).2 = none ∧
    live_keys after_reuse.mem after_reuse.heap = [2, 0, 3, 0] ∧
    ¬ heap_ordered after_reuse.mem after_reuse.heap := by
  decide

/-- C2 (failing run): after the same run the event with key 1 has been returned
by `heap_pop`, the event registered last has key 0 and was never returned, the
heap is not empty and the key at the root is 2. -/
theorem root_not_minimum_after_pop :
    (heap_pop after_four.mem after_four.heap).2 = some 0 ∧
    (after_four.mem 0).time.absolute_sec = 1 ∧
    call_key (absl_call "00:00:00") = 0 ∧
    0 < after_reuse.heap.size ∧
    key after_reuse.mem after_reuse.heap 0 = 2 ∧
    after_pop.heap.data 1 = after_pop.heap.data 3 := by
  decide

/-- C3: for every `N <= 100` and every list of `N` keys in `[0, 86399]`, requests
registering events with those keys exist, and for any such requests: registering
them into the initialised empty store succeeds with `size = N`, and `N` calls of
`heap_pop` then return `N` events whose keys are the registered keys (as a
multiset) in non-decreasing order, and leave `size = 0`. -/
theorem register_then_pop_sorted (ks : List Int) (hlen : ks.length ≤ CAPACITY)
    (hrange : ∀ k ∈ ks, 0 ≤ k ∧ k ≤ 86399) :
    (∃ calls : List Call, (∀ c ∈ calls, valid_call c) ∧ calls.map call_key = ks) ∧
    ∀ calls : List Call, (∀ c ∈ calls, valid_call c) → calls.map call_key = ks →
      (register_all InitializeSharedMemory calls).2 = none ∧
      (register_all InitializeSharedMemory calls).1.heap.size = ks.length ∧
      ∃ ptrs : List Nat,
        (pop_all (register_all InitializeSharedMemory calls).1.mem ks.length
          (register_all InitializeSharedMemory calls).1.heap).2 = ptrs.map some ∧
        ptrs.length = ks.length ∧
        (pop_all (register_all InitializeSharedMemory calls).1.mem ks.length
          (register_all InitializeSharedMemory calls).1.heap).1.size = 0 ∧
        (↑(ptrs.map (fun q =>
            ((register_all InitializeSharedMemory calls).1.mem q).time.absolute_sec)) :
          Multiset Int) = ↑ks ∧
        List.Sorted (fun a b => a ≤ b) (ptrs.map (fun q =>
            ((register_all InitializeSharedMemory calls).1.mem q).time.absolute_sec)) := by
  refine ⟨⟨ks.map absl_of_key, ?_, ?_⟩, ?_⟩
  · intro c hc
    obtain ⟨k, hk, rfl⟩ := List.mem_map.1 hc
    exact (absl_of_key_valid k (hrange k hk).1 (hrange k hk).2).1
  · rw [List.map_map]
    conv_rhs => rw [← List.map_id ks]
    apply List.map_congr_left
    intro k hk
    exact (absl_of_key_valid k (hrange k hk).1 (hrange k hk).2).2
  · intro calls hvalid hkeys
    have hl : calls.length = ks.length := by rw [← hkeys, List.length_map]
    obtain ⟨h1, h2, _, ptrs, h4, h5, h6, h7, h8⟩ :=
      register_all_then_pop calls (by omega) hvalid
    rw [hl] at h2 h4 h5 h6
    rw [hkeys] at h7
    exact ⟨h1, h2, ptrs, h4, h5, h6, h7, h8⟩

theorem register_then_pop_sorted_witness :
    ([3, 7199, 1] : List Int).length ≤ CAPACITY ∧
    (∀ k ∈ ([3, 7199, 1] : List Int), 0 ≤ k ∧ k ≤ 86399) ∧
    (register_all InitializeSharedMemory three_calls).2 = none ∧
    (register_all InitializeSharedMemory three_calls).1.heap.size =
      ([3, 7199, 1] : List Int).length ∧
    ∃ ptrs : List Nat,
      (pop_all (register_all InitializeSharedMemory three_calls).1.mem
        ([3, 7199, 1] : List Int).length
        (register_all InitializeSharedMemory three_calls).1.heap).2 = ptrs.map some ∧
      ptrs.length = ([3, 7199, 1] : List Int).length ∧
      (pop_all (register_all InitializeSharedMemory three_calls).1.mem
        ([3, 7199, 1] : List Int).length
        (register_all InitializeSharedMemory three_calls).1.heap).1.size = 0 ∧
      (↑(ptrs.map (fun q =>
          ((register_all InitializeSharedMemory three_calls).1.mem q).time.absolute_sec)) :
        Multiset Int) = ↑([3, 7199, 1] : List Int) ∧
      List.Sorted (fun a b => a ≤ b) (ptrs.map (fun q =>
          ((register_all InitializeSharedMemory three_calls).1.mem q).time.absolute_sec)) :=
  ⟨by decide, by decide,
    (register_then_pop_sorted [3, 7199, 1] (by decide) (by decide)).2 three_calls
      (by decide) (by decide)⟩

/-- C4: `heap_insert` raises the Heap overflow error exactly when `size >= CAPACITY`,
and then leaves the heap as it was; otherwise it returns, `size` grows by one, the
live entries are the previous ones plus `item` (as a multiset), and the min-heap
order of the live entries is preserved. -/
theorem heap_insert_spec (mem : Mem) (heap : Heap) (item : Nat) :
    ((heap_insert mem heap item).2 = some Err.heap_overflow ↔ heap.size ≥ CAPACITY) ∧
    (heap.size ≥ CAPACITY → (heap_insert mem heap item).1 = heap) ∧
    (heap.size < CAPACITY →
      (heap_insert mem heap item).2 = none ∧
      (heap_insert mem heap item).1.size = heap.size + 1 ∧
      (↑(live (heap_insert mem heap item).1) : Multiset Nat) = item ::ₘ ↑(live heap) ∧
      (heap_ordered mem heap → heap_ordered mem (heap_insert mem heap item).1)) := by
  refine ⟨?_, ?_, ?_⟩
  · by_cases h : heap.size ≥ CAPACITY
    · simp [heap_insert, h]
    · simp [heap_insert, h]
  · intro h
    simp [heap_insert, h]
  · intro h
    obtain ⟨σ, _, _, h3, h4⟩ := heap_insert_data mem heap item h
    refine ⟨h4, h3, ?_, heap_insert_ordered mem heap item h⟩
    rw [Multiset.cons_coe]
    exact Multiset.coe_eq_coe.2 (heap_insert_live mem heap item h)

theorem heap_insert_spec_witness :
    (heap_insert after_four.mem after_four.heap 4).2 = none ∧
    (heap_insert after_four.mem after_four.heap 4).1.size = after_four.heap.size + 1 ∧
    (↑(live (heap_insert after_four.mem after_four.heap 4).1) : Multiset Nat) =
      4 ::ₘ ↑(live after_four.heap) ∧
    (heap_ordered after_four.mem after_four.heap →
      heap_ordered after_four.mem (heap_insert after_four.mem after_four.heap 4).1) :=
  (heap_insert_spec after_four.mem after_four.heap 4).2.2 (by decide)

/-- C5 (failing run): on a store with `size = 100` a valid registration ends at
the access `data[100]`, outside the array, before `heap_insert` can raise the
Heap overflow error. -/
theorem register_at_capacity_out_of_bounds :
    valid_call (absl_call "00:00:01") ∧ full_store.heap.size = CAPACITY ∧
    (register full_store (absl_call "00:00:01")).2 = some (Err.out_of_bounds 100) ∧
    (register full_store (absl_call "00:00:01")).2 ≠ some Err.heap_overflow := by
  decide

/-- C6: on an empty heap `heap_pop` returns NULL and changes nothing; on a
non-empty heap in min-heap order it returns the former root `data[0]`, whose key
is not above the key of any live entry, `size` drops by one, the live entries are
the previous ones minus the returned root (as a multiset), and the live entries
are again in min-heap order. -/
theorem heap_pop_spec (mem : Mem) (heap : Heap) :
    (heap.size = 0 → heap_pop mem heap = (heap, none)) ∧
    (0 < heap.size → heap_ordered mem heap →
      (heap_pop mem heap).2 = some (heap.data 0) ∧
      (∀ i, i < heap.size → key mem heap 0 ≤ key mem heap i) ∧
      (heap_pop mem heap).1.size + 1 = heap.size ∧
      (↑(live heap) : Multiset Nat) = heap.data 0 ::ₘ ↑(live (heap_pop mem heap).1) ∧
      heap_ordered mem (heap_pop mem heap).1) := by
  refine ⟨?_, ?_⟩
  · intro h
    simp [heap_pop, h]
  · intro h ho
    obtain ⟨σ, _, _, h3, h4⟩ := heap_pop_data mem heap h
    refine ⟨h4, ?_, by omega, ?_, heap_pop_ordered mem heap h ho⟩
    · exact ordered_root_min _ _ ((heap_ordered_iff mem heap).1 ho)
    · rw [Multiset.cons_coe]
      exact Multiset.coe_eq_coe.2 (heap_pop_live mem heap h)

theorem heap_pop_spec_witness :
    (heap_pop after_four.mem after_four.heap).2 = some (after_four.heap.data 0) ∧
    (∀ i, i < after_four.heap.size →
      key after_four.mem after_four.heap 0 ≤ key after_four.mem after_four.heap i) ∧
    (heap_pop after_four.mem after_four.heap).1.size + 1 = after_four.heap.size ∧
    (↑(live after_four.heap) : Multiset Nat) =
      after_four.heap.data 0 ::ₘ ↑(live (heap_pop after_four.mem after_four.heap).1) ∧
    heap_ordered after_four.mem (heap_pop after_four.mem after_four.heap).1 :=
  (heap_pop_spec after_four.mem after_four.heap).2 (by decide) (by decide)

/-- C7: when the live entries point to pairwise distinct structs and are in
min-heap order, overwriting the time of the struct behind `data[0]` and then
running `heapify_down(heap, 0)` keeps `size`, leaves the live entries in min-heap
order, and the multiset of their keys is the previous one with the key at the
root replaced by the new key. -/
theorem reschedule_root_spec (mem : Mem) (heap : Heap) (t : Time)
    (hd : live_distinct heap) (ho : heap_ordered mem heap) :
    (heapify_down (set_time mem (heap.data 0) t) heap 0).size = heap.size ∧
    heap_ordered (set_time mem (heap.data 0) t)
      (heapify_down (set_time mem (heap.data 0) t) heap 0) ∧
    (↑(live_keys (set_time mem (heap.data 0) t)
        (heapify_down (set_time mem (heap.data 0) t) heap 0)) : Multiset Int) =
      ↑((live_keys mem heap).set 0 t.absolute_sec) := by
  refine ⟨?_, ?_, ?_⟩
  · simp only [heapify_down, heapify_down_loop_size]
  · apply heapify_down_root_ordered
    intro p c hc hpc hp
    have h1 : ¬ heap.data p = heap.data 0 := fun h => hp (hd p (by omega) 0 (by omega) h)
    have h2 : ¬ heap.data c = heap.data 0 := fun h => by
      have := hd c hc 0 (by omega) h
      omega
    simp only [key_set_time, h1, h2, if_false]
    exact ho p (by omega) c hc hpc
  · rw [← live_keys_set_time mem heap t hd]
    exact Multiset.coe_eq_coe.2 (heapify_down_live_keys _ heap 0)

theorem reschedule_root_spec_witness :
    live_distinct after_four.heap ∧ heap_ordered after_four.mem after_four.heap ∧
    (heapify_down (set_time after_four.mem (after_four.heap.data 0) ⟨0, 0, 9, 9⟩)
      after_four.heap 0).size = after_four.heap.size ∧
    heap_ordered (set_time after_four.mem (after_four.heap.data 0) ⟨0, 0, 9, 9⟩)
      (heapify_down (set_time after_four.mem (after_four.heap.data 0) ⟨0, 0, 9, 9⟩)
        after_four.heap 0) ∧
    (↑(live_keys (set_time after_four.mem (after_four.heap.data 0) ⟨0, 0, 9, 9⟩)
        (heapify_down (set_time after_four.mem (after_four.heap.data 0) ⟨0, 0, 9, 9⟩)
          after_four.heap 0)) : Multiset Int) =
      ↑((live_keys after_four.mem after_four.heap).set 0 (9 : Int)) :=
  ⟨by decide, by decide,
    reschedule_root_spec after_four.mem after_four.heap ⟨0, 0, 9, 9⟩ (by decide) (by decide)⟩

/-- C8: when the root is a due one-shot event, one iteration of the worker loop
writes exactly one line to the log, the 21 letters `A` of line 311 followed by the
message of the root, and removes exactly that event: `size` drops by one, the live
entries are the previous ones minus the root (as a multiset) and no slot is
written.  Whatever the store, an iteration writes at most one line and removes at
most one event. -/
theorem main_iter_one_shot (shm : Store) (now_tm : Tm) (junk : Int × Int × Int) :
    (0 < shm.heap.size → (shm.mem (shm.heap.data 0)).is_temp_event = false →
      key shm.mem shm.heap 0 ≤ sec_of_tm now_tm →
        (my_schedule_main_iter shm now_tm junk).2 =
          ["AAAAAAAAAAAAAAAAAAAAA".data ++ (shm.mem (shm.heap.data 0)).message] ∧
        (my_schedule_main_iter shm now_tm junk).1.heap.size + 1 = shm.heap.size ∧
        (↑(live shm.heap) : Multiset Nat) =
          shm.heap.data 0 ::ₘ ↑(live (my_schedule_main_iter shm now_tm junk).1.heap) ∧
        (my_schedule_main_iter shm now_tm junk).1.mem = shm.mem) ∧
    ((my_schedule_main_iter shm now_tm junk).2.length ≤ 1 ∧
      (my_schedule_main_iter shm now_tm junk).1.heap.size ≤ shm.heap.size ∧
      shm.heap.size ≤ (my_schedule_main_iter shm now_tm junk).1.heap.size + 1) := by
  refine ⟨?_, ?_⟩
  · intro hpos hkind hdue
    have hne : shm.heap.size ≠ 0 := by omega
    have hdue1 : (shm.mem (shm.heap.data 0)).time.absolute_sec ≤ sec_of_tm now_tm := hdue
    obtain ⟨_, _, h3, _⟩ := heap_pop_data shm.mem shm.heap hpos
    simp only [my_schedule_main_iter, hne, ne_eq, not_false_eq_true, if_true, hdue1, hkind,
      Bool.false_eq_true, if_false, log_line, true_and, and_true]
    refine ⟨by omega, ?_⟩
    rw [Multiset.cons_coe]
    exact Multiset.coe_eq_coe.2 (heap_pop_live shm.mem shm.heap hpos)
  · unfold my_schedule_main_iter
    by_cases hne : shm.heap.size ≠ 0
    · by_cases hdue : (shm.mem (shm.heap.data 0)).time.absolute_sec ≤ sec_of_tm now_tm
      · cases hkind : (shm.mem (shm.heap.data 0)).is_temp_event
        · obtain ⟨_, _, h3, _⟩ := heap_pop_data shm.mem shm.heap (by omega)
          simp only [hne, ne_eq, not_false_eq_true, if_true, hdue, hkind,
            Bool.false_eq_true, if_false, List.length_singleton, le_refl, true_and]
          omega
        · simp only [hne, ne_eq, not_false_eq_true, if_true, hdue, hkind,
            List.length_singleton, le_refl, true_and, heapify_down, heapify_down_loop_size]
          omega
      · simp only [hne, ne_eq, not_false_eq_true, if_true, hdue, if_false, List.length_nil]
        omega
    · simp only [hne, if_false, List.length_nil]
      omega

theorem main_iter_one_shot_witness :
    (after_four.mem (after_four.heap.data 0)).message = "m".data ∧
    (my_schedule_main_iter after_four ⟨0, 0, 1⟩ (0, 0, 0)).2 =
      ["AAAAAAAAAAAAAAAAAAAAA".data ++ "m".data] ∧
    (my_schedule_main_iter after_four ⟨0, 0, 1⟩ (0, 0, 0)).1.heap.size + 1 =
      after_four.heap.size ∧
    (↑(live after_four.heap) : Multiset Nat) =
      after_four.heap.data 0 ::ₘ
        ↑(live (my_schedule_main_iter after_four ⟨0, 0, 1⟩ (0, 0, 0)).1.heap) ∧
    (my_schedule_main_iter after_four ⟨0, 0, 1⟩ (0, 0, 0)).1.mem = after_four.mem :=
  ⟨by decide,
    (main_iter_one_shot after_four ⟨0, 0, 1⟩ (0, 0, 0)).1 (by decide) (by decide) (by decide)⟩

/-- C9: when the heap is empty, or its root is not yet due, one iteration of the
worker loop writes nothing to the log and leaves `size`, `data` and every slot
as they were. -/
theorem main_iter_idle (shm : Store) (now_tm : Tm) (junk : Int × Int × Int)
    (h : shm.heap.size = 0 ∨
      (0 < shm.heap.size ∧ key shm.mem shm.heap 0 > sec_of_tm now_tm)) :
    my_schedule_main_iter shm now_tm junk = (shm, []) := by
  rcases h with h | ⟨_, h⟩
  · simp [my_schedule_main_iter, h]
  · have h1 : ¬ (shm.mem (shm.heap.data 0)).time.absolute_sec ≤ sec_of_tm now_tm := by
      simp only [key] at h
      omega
    simp [my_schedule_main_iter, h1]

theorem main_iter_idle_witness :
    (after_four.heap.size = 0 ∨
      (0 < after_four.heap.size ∧
        key after_four.mem after_four.heap 0 > sec_of_tm ⟨0, 0, 0⟩)) ∧
    my_schedule_main_iter after_four ⟨0, 0, 0⟩ (0, 0, 0) = (after_four, []) :=
  ⟨by decide, main_iter_idle after_four ⟨0, 0, 0⟩ (0, 0, 0) (by decide)⟩

/-- C10: for a recurring event with parsed offset `(h, m, s)`, the time written
at registration (into the struct behind `data[size]`, for the local time sampled
by the call) and the time written at a firing (into the struct behind `data[0]`,
for the local time sampled by the iteration) both have
`absolute_sec = (now_sec + 3600 h + 60 m + s) mod 86400`, with `hour`, `minute`,
`second` the digits of that value. -/
theorem temp_event_time (shm : Store) (now_tm : Tm) (c : Call) (junk : Int × Int × Int)
    (h m s : Int) :
    (valid_call c → is_temp_call c = true → parsed_time c = [h, m, s] →
      shm.heap.size < CAPACITY →
        (register shm c).2 = none ∧
        ((register shm c).1.mem (shm.heap.data shm.heap.size)).time =
          time_after (sec_of_tm c.now_tm) (3600 * h + 60 * m + s)) ∧
    (0 < shm.heap.size → (shm.mem (shm.heap.data 0)).is_temp_event = true →
      key shm.mem shm.heap 0 ≤ sec_of_tm now_tm →
      sscanf3 (shm.mem (shm.heap.data 0)).string_time = [h, m, s] →
        ((my_schedule_main_iter shm now_tm junk).1.mem (shm.heap.data 0)).time =
          time_after (sec_of_tm now_tm) (3600 * h + 60 * m + s)) := by
  refine ⟨?_, ?_⟩
  · intro hv htemp hparse hsz
    obtain ⟨hkind, hrange⟩ := hv
    simp only [hparse] at hrange
    have hn : ¬ shm.heap.size ≥ CAPACITY := by omega
    have hk : ¬ (c_str (List.take 4 c.kind) ≠ "temp".data ∧
        c_str (List.take 4 c.kind) ≠ "absl".data) := by
      rintro ⟨h1, h2⟩
      rcases hkind with h | h
      · exact h1 h
      · exact h2 h
    have hr : ¬ (h < 0 ∨ h > 23 ∨ m < 0 ∨ m > 59 ∨ s < 0 ∨ s > 59) := by omega
    simp only [parsed_time] at hparse
    simp only [is_temp_call, decide_eq_true_eq] at htemp
    have hins := heap_insert_data
        (write_slot shm.mem (shm.heap.data shm.heap.size)
          ⟨true, c_str (List.take 8 c.time), c_str (List.take 255 c.message),
            add_offset c.now_tm h m s⟩)
        shm.heap (shm.heap.data shm.heap.size) hsz
    simp only [register, my_schedule, Option.isSome_some, Option.getD_some, true_and, hk,
      if_false, hparse, hr, if_true, my_schedule_block, hn]
    simp only [htemp, decide_True, event_time_of, write_slot_same, if_true]
    exact ⟨hins.choose_spec.2.2.2, add_offset_eq c.now_tm h m s⟩
  · intro hpos htemp hdue hparse
    have hne : shm.heap.size ≠ 0 := by omega
    have hdue1 : (shm.mem (shm.heap.data 0)).time.absolute_sec ≤ sec_of_tm now_tm := hdue
    simp only [my_schedule_main_iter, hne, ne_eq, not_false_eq_true, if_true, hdue1, htemp,
      scan_locals, hparse, set_time, write_slot_same]
    exact add_offset_eq now_tm h m s

theorem temp_event_time_witness :
    ((register InitializeSharedMemory (temp_call "13:59:59")).2 = none ∧
      ((register InitializeSharedMemory (temp_call "13:59:59")).1.mem
        (InitializeSharedMemory.heap.data InitializeSharedMemory.heap.size)).time =
        time_after (sec_of_tm (temp_call "13:59:59").now_tm) (3600 * 13 + 60 * 59 + 59)) ∧
    ((my_schedule_main_iter one_temp ⟨23, 59, 59⟩ (0, 0, 0)).1.mem (one_temp.heap.data 0)).time =
      time_after (sec_of_tm ⟨23, 59, 59⟩) (3600 * 0 + 60 * 0 + 2) :=
  ⟨(temp_event_time InitializeSharedMemory ⟨23, 59, 59⟩ (temp_call "13:59:59") (0, 0, 0)
      13 59 59).1 (by decide) (by decide) (by decide) (by decide),
    (temp_event_time one_temp ⟨23, 59, 59⟩ (temp_call "00:00:02") (0, 0, 0)
      0 0 2).2 (by decide) (by decide) (by decide) (by decide)⟩

/-- C11 (counterexample): a recurring event with offset 2 seconds and key 43202,
fired by an iteration that samples 12:00:05, gets the key 43207, not
`(43202 + 2) mod 86400`. -/
theorem firing_key_not_previous_plus_offset :
    0 < one_temp.heap.size ∧
    (one_temp.mem (one_temp.heap.data 0)).is_temp_event = true ∧
    sscanf3 (one_temp.mem (one_temp.heap.data 0)).string_time = [0, 0, 2] ∧
    key one_temp.mem one_temp.heap 0 = 43202 ∧
    key one_temp.mem one_temp.heap 0 ≤ sec_of_tm ⟨12, 0, 5⟩ ∧
    ((my_schedule_main_iter one_temp ⟨12, 0, 5⟩ (0, 0, 0)).1.mem
      (one_temp.heap.data 0)).time.absolute_sec = 43207 ∧
    ((my_schedule_main_iter one_temp ⟨12, 0, 5⟩ (0, 0, 0)).1.mem
      (one_temp.heap.data 0)).time.absolute_sec ≠
      (key one_temp.mem one_temp.heap 0 + (3600 * 0 + 60 * 0 + 2)) % 86400 := by
  decide

/-- C11 (amended): when the poller fires a recurring event with parsed offset
`(h, m, s)`, `d = 3600 h + 60 m + s`, at sampled time `now_sec`, the key of the event
after the firing is `(now_sec + d) mod 86400` (`mktime` modelled as carry
normalisation of seconds into minutes into hours, the day being dropped, no DST
shift); it equals
`(key before the firing + d) mod 86400` exactly when `now_sec` and the key before
the firing agree modulo 86400, in particular when the event fires in the very
second it is due. -/
theorem firing_key_from_now (shm : Store) (now_tm : Tm) (junk : Int × Int × Int) (h m s : Int)
    (hpos : 0 < shm.heap.size) (htemp : (shm.mem (shm.heap.data 0)).is_temp_event = true)
    (hdue : key shm.mem shm.heap 0 ≤ sec_of_tm now_tm)
    (hparse : sscanf3 (shm.mem (shm.heap.data 0)).string_time = [h, m, s]) :
    ((my_schedule_main_iter shm now_tm junk).1.mem (shm.heap.data 0)).time.absolute_sec =
      (sec_of_tm now_tm + (3600 * h + 60 * m + s)) % 86400 ∧
    (((my_schedule_main_iter shm now_tm junk).1.mem (shm.heap.data 0)).time.absolute_sec =
        (key shm.mem shm.heap 0 + (3600 * h + 60 * m + s)) % 86400 ↔
      (sec_of_tm now_tm - key shm.mem shm.heap 0) % 86400 = 0) ∧
    (sec_of_tm now_tm = key shm.mem shm.heap 0 →
      ((my_schedule_main_iter shm now_tm junk).1.mem (shm.heap.data 0)).time.absolute_sec =
        (key shm.mem shm.heap 0 + (3600 * h + 60 * m + s)) % 86400) := by
  rw [main_iter_fire shm now_tm junk hpos htemp hdue h m s hparse]
  have hk : (set_time shm.mem (shm.heap.data 0) (add_offset now_tm h m s)
      (shm.heap.data 0)).time.absolute_sec =
      (sec_of_tm now_tm + (3600 * h + 60 * m + s)) % 86400 := by
    rw [set_time_same, add_offset_eq]
    rfl
  dsimp only
  rw [hk]
  refine ⟨rfl, ?_, ?_⟩
  · omega
  · intro heq
    rw [heq]

theorem firing_key_from_now_witness :
    0 < one_temp.heap.size ∧
    (one_temp.mem (one_temp.heap.data 0)).is_temp_event = true ∧
    key one_temp.mem one_temp.heap 0 ≤ sec_of_tm ⟨12, 0, 2⟩ ∧
    sscanf3 (one_temp.mem (one_temp.heap.data 0)).string_time = [0, 0, 2] ∧
    ((my_schedule_main_iter one_temp ⟨12, 0, 2⟩ (0, 0, 0)).1.mem
      (one_temp.heap.data 0)).time.absolute_sec =
      (sec_of_tm ⟨12, 0, 2⟩ + (3600 * 0 + 60 * 0 + 2)) % 86400 :=
  ⟨by decide, by decide, by decide, by decide,
    (firing_key_from_now one_temp ⟨12, 0, 2⟩ (0, 0, 0) 0 0 2 (by decide) (by decide)
      (by decide) (by decide)).1⟩

/-- C12: when the root is a due recurring event, one iteration of the worker loop
leaves `size` unchanged and leaves the flag `is_temp_event`, the stored offset text
`string_time` and the message of the fired event unchanged; only the time fields of
that struct are written and no other struct is written.  The offset text stored by
the registration of a valid request is the text the registration parsed, so the
firing reads the same `(h, m, s)` from it. -/
theorem firing_frame (shm : Store) (now_tm : Tm) (junk : Int × Int × Int) :
    (0 < shm.heap.size → (shm.mem (shm.heap.data 0)).is_temp_event = true →
      key shm.mem shm.heap 0 ≤ sec_of_tm now_tm →
        (my_schedule_main_iter shm now_tm junk).1.heap.size = shm.heap.size ∧
        ((my_schedule_main_iter shm now_tm junk).1.mem (shm.heap.data 0)).is_temp_event =
          (shm.mem (shm.heap.data 0)).is_temp_event ∧
        ((my_schedule_main_iter shm now_tm junk).1.mem (shm.heap.data 0)).string_time =
          (shm.mem (shm.heap.data 0)).string_time ∧
        ((my_schedule_main_iter shm now_tm junk).1.mem (shm.heap.data 0)).message =
          (shm.mem (shm.heap.data 0)).message ∧
        (∀ q, q ≠ shm.heap.data 0 →
          (my_schedule_main_iter shm now_tm junk).1.mem q = shm.mem q)) ∧
    (∀ (c : Call) (h m s : Int), valid_call c → parsed_time c = [h, m, s] →
      shm.heap.size < CAPACITY →
        ((register shm c).1.mem (shm.heap.data shm.heap.size)).string_time =
          c_str (c.time.take 8) ∧
        scan_locals ((register shm c).1.mem (shm.heap.data shm.heap.size)).string_time junk =
          (h, m, s)) := by
  refine ⟨?_, ?_⟩
  · intro hpos htemp hdue
    obtain ⟨h, m, s, hfire⟩ := main_iter_fire_any shm now_tm junk hpos htemp hdue
    rw [hfire]
    dsimp only
    refine ⟨heapify_down_size _ _ _, ?_, ?_, ?_, ?_⟩
    · rw [set_time_same]
    · rw [set_time_same]
    · rw [set_time_same]
    · intro q hq
      exact set_time_other _ _ _ _ hq
  · intro c h m s hv hparse hsz
    rw [register_slot shm c hv hsz h m s hparse]
    dsimp only
    have hw : write_slot shm.mem (shm.heap.data shm.heap.size) (slot_of_call c h m s)
        (shm.heap.data shm.heap.size) = slot_of_call c h m s := write_slot_same _ _ _
    rw [hw]
    refine ⟨rfl, ?_⟩
    apply scan_locals_eq
    exact hparse

theorem firing_frame_witness :
    ((my_schedule_main_iter one_temp ⟨12, 0, 5⟩ (7, 8, 9)).1.heap.size = one_temp.heap.size ∧
      ((my_schedule_main_iter one_temp ⟨12, 0, 5⟩ (7, 8, 9)).1.mem
        (one_temp.heap.data 0)).is_temp_event =
        (one_temp.mem (one_temp.heap.data 0)).is_temp_event ∧
      ((my_schedule_main_iter one_temp ⟨12, 0, 5⟩ (7, 8, 9)).1.mem
        (one_temp.heap.data 0)).string_time =
        (one_temp.mem (one_temp.heap.data 0)).string_time ∧
      ((my_schedule_main_iter one_temp ⟨12, 0, 5⟩ (7, 8, 9)).1.mem
        (one_temp.heap.data 0)).message =
        (one_temp.mem (one_temp.heap.data 0)).message ∧
      (∀ q, q ≠ one_temp.heap.data 0 →
        (my_schedule_main_iter one_temp ⟨12, 0, 5⟩ (7, 8, 9)).1.mem q = one_temp.mem q)) ∧
    (((register InitializeSharedMemory (temp_call "00:00:02")).1.mem
        (InitializeSharedMemory.heap.data InitializeSharedMemory.heap.size)).string_time =
        c_str ((temp_call "00:00:02").time.take 8) ∧
      scan_locals ((register InitializeSharedMemory (temp_call "00:00:02")).1.mem
        (InitializeSharedMemory.heap.data InitializeSharedMemory.heap.size)).string_time
          (7, 8, 9) = (0, 0, 2)) :=
  ⟨(firing_frame one_temp ⟨12, 0, 5⟩ (7, 8, 9)).1 (by decide) (by decide) (by decide),
    (firing_frame InitializeSharedMemory ⟨12, 0, 5⟩ (7, 8, 9)).2 (temp_call "00:00:02") 0 0 2
      (by decide) (by decide) (by decide)⟩

/-- C13: in every store reachable from the initialised store by registrations and
iterations of the worker loop, every live event has `absolute_sec` in `[0, 86399]`,
`absolute_sec = 3600 hour + 60 minute + second`, and `hour`, `minute`, `second` in
`[0, 23]`, `[0, 59]`, `[0, 59]`; a one-shot event registered with a time text
parsed as `(h, m, s)` gets exactly the key `3600 h + 60 m + s`. -/
theorem reachable_times_ok (shm : Store) :
    (Reachable shm → ∀ i, i < shm.heap.size → time_ok (shm.mem (shm.heap.data i)).time) ∧
    (∀ (c : Call) (h m s : Int), valid_call c → is_temp_call c = false →
      parsed_time c = [h, m, s] → shm.heap.size < CAPACITY →
        (register shm c).2 = none ∧
        ((register shm c).1.mem (shm.heap.data shm.heap.size)).time =
          ⟨h, m, s, 3600 * h + 60 * m + s⟩) := by
  refine ⟨fun hr i _ => reachable_slots_ok shm hr _, ?_⟩
  intro c h m s hv htemp hparse hsz
  rw [register_slot shm c hv hsz h m s hparse]
  dsimp only
  rw [write_slot_same]
  simp only [slot_of_call, htemp, event_time_of, Bool.false_eq_true, if_false, Time.mk.injEq,
    true_and]
  omega

theorem reachable_times_ok_witness :
    (∀ i, i < after_reuse.heap.size → time_ok (after_reuse.mem (after_reuse.heap.data i)).time) ∧
    ((register InitializeSharedMemory (absl_call "10:20:30")).2 = none ∧
      ((register InitializeSharedMemory (absl_call "10:20:30")).1.mem
        (InitializeSharedMemory.heap.data InitializeSharedMemory.heap.size)).time =
        ⟨10, 20, 30, 3600 * 10 + 60 * 20 + 30⟩) :=
  ⟨(reachable_times_ok after_reuse).1
      (Reachable.call _ noon (some "absl".data) (some "00:00:00".data) (some "m".data)
        (Reachable.iterate _ ⟨0, 0, 1⟩ (0, 0, 0)
          (Reachable.call _ noon (some "absl".data) (some "00:00:04".data) (some "m".data)
            (Reachable.call _ noon (some "absl".data) (some "00:00:03".data) (some "m".data)
              (Reachable.call _ noon (some "absl".data) (some "00:00:02".data) (some "m".data)
                (Reachable.call _ noon (some "absl".data) (some "00:00:01".data)
                  (some "m".data) Reachable.init)))))),
    (reachable_times_ok InitializeSharedMemory).2 (absl_call "10:20:30") 10 20 30
      (by decide) (by decide) (by decide) (by decide)⟩

/-- C14 (failing run): the kind text `temporary` is neither `temp` nor `absl`, yet
`my_schedule` returns without error and registers a recurring event. -/
theorem long_kind_accepted :
    "temporary".data ≠ "temp".data ∧ "temporary".data ≠ "absl".data ∧
    (my_schedule InitializeSharedMemory noon (some "temporary".data) (some "10:00:00".data)
      (some "x".data)).2 = none ∧
    (my_schedule InitializeSharedMemory noon (some "temporary".data) (some "10:00:00".data)
      (some "x".data)).1.heap.size = 1 ∧
    ((my_schedule InitializeSharedMemory noon (some "temporary".data) (some "10:00:00".data)
      (some "x".data)).1.mem 0).is_temp_event = true := by
  decide

/-- C15 (failing run): the time texts `1:2:3`, `12:34:56xyz` and `-0:+5: 7`
are not of the form HH:MM:SS, yet `my_schedule` returns without error and
registers events with keys 3723, 45296 and 307. -/
theorem loose_time_accepted :
    (register InitializeSharedMemory ⟨noon, "absl".data, "1:2:3".data, "x".data⟩).2 = none ∧
    ((register InitializeSharedMemory ⟨noon, "absl".data, "1:2:3".data, "x".data⟩).1.mem
      0).time = ⟨1, 2, 3, 3723⟩ ∧
    (register InitializeSharedMemory ⟨noon, "absl".data, "12:34:56xyz".data, "x".data⟩).2 =
      none ∧
    ((register InitializeSharedMemory ⟨noon, "absl".data, "12:34:56xyz".data, "x".data⟩).1.mem
      0).time = ⟨12, 34, 56, 45296⟩ ∧
    (register InitializeSharedMemory ⟨noon, "absl".data, "-0:+5: 7".data, "x".data⟩).2 = none ∧
    ((register InitializeSharedMemory ⟨noon, "absl".data, "-0:+5: 7".data, "x".data⟩).1.mem
      0).time = ⟨0, 5, 7, 307⟩ := by
  decide

/-- C16: whenever `my_schedule` ends with the kind error or with the time-format
error, the store is the one it was given: `size`, `data` and every field of every
slot are unchanged. -/
theorem validation_error_no_write (shm : Store) (now_tm : Tm)
    (string_status_event string_time string_message : Option Text)
    (herr : (my_schedule shm now_tm string_status_event string_time string_message).2 =
        some Err.invalid_kind ∨
      (my_schedule shm now_tm string_status_event string_time string_message).2 =
        some Err.invalid_time) :
    (my_schedule shm now_tm string_status_event string_time string_message).1 = shm := by
  rcases my_schedule_cases shm now_tm string_status_event string_time string_message with
    ⟨e, he⟩ | ⟨bs, b, h, m, s, hb⟩
  · rw [he]
  · exfalso
    rw [hb] at herr
    rcases herr with h1 | h1
    · exact (my_schedule_block_err _ _ _ _ _ _ _ _).1 h1
    · exact (my_schedule_block_err _ _ _ _ _ _ _ _).2 h1

theorem validation_error_no_write_witness :
    ((my_schedule after_four noon (some "bogus".data) (some "10:00:00".data) (some "x".data)).2 =
        some Err.invalid_kind ∨
      (my_schedule after_four noon (some "bogus".data) (some "10:00:00".data) (some "x".data)).2 =
        some Err.invalid_time) ∧
    ((my_schedule after_four noon (some "absl".data) (some "25:61:00".data) (some "x".data)).2 =
        some Err.invalid_kind ∨
      (my_schedule after_four noon (some "absl".data) (some "25:61:00".data) (some "x".data)).2 =
        some Err.invalid_time) ∧
    (my_schedule after_four noon (some "bogus".data) (some "10:00:00".data) (some "x".data)).1 =
      after_four ∧
    (my_schedule after_four noon (some "absl".data) (some "25:61:00".data) (some "x".data)).1 =
      after_four :=
  ⟨by decide, by decide,
    validation_error_no_write after_four noon (some "bogus".data) (some "10:00:00".data)
      (some "x".data) (by decide),
    validation_error_no_write after_four noon (some "absl".data) (some "25:61:00".data)
      (some "x".data) (by decide)⟩

/-- C18: on a store with `size <= 100` and for `index < size`, the loops of
`heapify_up(heap, index)` and `heapify_down(heap, index)` stop (further iterations
are never used), each calls `swap` at most 6 times, each reads and writes `data`
only at indices below `size`, and each leaves `size` unchanged and the entries
`data[0 .. size)` a permutation of what they were, without touching the entries
from `size` on. -/
theorem sift_bounds (mem : Mem) (heap : Heap) (index : Nat) (hs : heap.size ≤ CAPACITY)
    (hi : index < heap.size) :
    ((heapify_up_run mem index heap index).heap = heapify_up mem heap index ∧
      (∀ fuel, index ≤ fuel →
        heapify_up_run mem fuel heap index = heapify_up_run mem index heap index) ∧
      (heapify_up_run mem index heap index).swaps ≤ 6 ∧
      (∀ i ∈ (heapify_up_run mem index heap index).indices, i < heap.size) ∧
      (heapify_up mem heap index).size = heap.size ∧
      (↑(live (heapify_up mem heap index)) : Multiset Nat) = ↑(live heap) ∧
      (∀ i, heap.size ≤ i → (heapify_up mem heap index).data i = heap.data i)) ∧
    ((heapify_down_run mem heap.size heap index).heap = heapify_down mem heap index ∧
      (∀ fuel, heap.size ≤ index + fuel →
        heapify_down_run mem fuel heap index = heapify_down_run mem heap.size heap index) ∧
      (heapify_down_run mem heap.size heap index).swaps ≤ 6 ∧
      (∀ i ∈ (heapify_down_run mem heap.size heap index).indices, i < heap.size) ∧
      (heapify_down mem heap index).size = heap.size ∧
      (↑(live (heapify_down mem heap index)) : Multiset Nat) = ↑(live heap) ∧
      (∀ i, heap.size ≤ i → (heapify_down mem heap index).data i = heap.data i)) := by
  have hcap : heap.size ≤ 100 := hs
  refine ⟨⟨?_, ?_, ?_, ?_, ?_, ?_, ?_⟩, ⟨?_, ?_, ?_, ?_, ?_, ?_, ?_⟩⟩
  · exact heapify_up_run_heap mem index heap index
  · intro fuel hf
    exact heapify_up_run_fuel mem fuel index heap index hf (le_refl _)
  · apply heapify_up_run_swaps
    norm_num
    omega
  · intro i hmem
    have := heapify_up_run_indices mem index heap index i hmem
    omega
  · exact (heapify_up_live mem heap index hi).1
  · exact Multiset.coe_eq_coe.2 (heapify_up_live mem heap index hi).2.1
  · exact (heapify_up_live mem heap index hi).2.2
  · exact heapify_down_run_heap mem heap.size heap index
  · intro fuel hf
    exact heapify_down_run_fuel mem fuel heap.size heap index hf (by omega)
  · apply heapify_down_run_swaps
    norm_num
    omega
  · exact heapify_down_run_indices mem heap.size heap index hi
  · exact (heapify_down_live mem heap index).1
  · exact Multiset.coe_eq_coe.2 (heapify_down_live mem heap index).2.1
  · exact (heapify_down_live mem heap index).2.2

theorem sift_bounds_witness :
    after_four.heap.size ≤ CAPACITY ∧ 0 < after_four.heap.size ∧ 3 < after_four.heap.size ∧
    (heapify_down_run sink_mem after_four.heap.size after_four.heap 0).swaps = 2 ∧
    (heapify_down_run sink_mem after_four.heap.size after_four.heap 0).indices =
      [1, 0, 2, 1, 0, 1, 3, 1, 1, 3] ∧
    live_keys sink_mem after_four.heap = [9, 2, 3, 4] ∧
    live_keys sink_mem (heapify_down sink_mem after_four.heap 0) = [2, 4, 3, 9] ∧
    ((heapify_down_run sink_mem after_four.heap.size after_four.heap 0).heap =
        heapify_down sink_mem after_four.heap 0 ∧
      (∀ fuel, after_four.heap.size ≤ 0 + fuel →
        heapify_down_run sink_mem fuel after_four.heap 0 =
          heapify_down_run sink_mem after_four.heap.size after_four.heap 0) ∧
      (heapify_down_run sink_mem after_four.heap.size after_four.heap 0).swaps ≤ 6 ∧
      (∀ i ∈ (heapify_down_run sink_mem after_four.heap.size after_four.heap 0).indices,
        i < after_four.heap.size) ∧
      (heapify_down sink_mem after_four.heap 0).size = after_four.heap.size ∧
      (↑(live (heapify_down sink_mem after_four.heap 0)) : Multiset Nat) =
        ↑(live after_four.heap) ∧
      (∀ i, after_four.heap.size ≤ i →
        (heapify_down sink_mem after_four.heap 0).data i = after_four.heap.data i)) ∧
    (heapify_up_run rise_mem 3 after_four.heap 3).swaps = 2 ∧
    (heapify_up_run rise_mem 3 after_four.heap 3).indices = [3, 1, 3, 1, 1, 0, 1, 0] ∧
    live_keys rise_mem after_four.heap = [1, 2, 3, 0] ∧
    live_keys rise_mem (heapify_up rise_mem after_four.heap 3) = [0, 1, 3, 2] ∧
    ((heapify_up_run rise_mem 3 after_four.heap 3).heap = heapify_up rise_mem after_four.heap 3 ∧
      (∀ fuel, 3 ≤ fuel →
        heapify_up_run rise_mem fuel after_four.heap 3 =
          heapify_up_run rise_mem 3 after_four.heap 3) ∧
      (heapify_up_run rise_mem 3 after_four.heap 3).swaps ≤ 6 ∧
      (∀ i ∈ (heapify_up_run rise_mem 3 after_four.heap 3).indices, i < after_four.heap.size) ∧
      (heapify_up rise_mem after_four.heap 3).size = after_four.heap.size ∧
      (↑(live (heapify_up rise_mem after_four.heap 3)) : Multiset Nat) =
        ↑(live after_four.heap) ∧
      (∀ i, after_four.heap.size ≤ i →
        (heapify_up rise_mem after_four.heap 3).data i = after_four.heap.data i)) :=
  ⟨by decide, by decide, by decide, by decide, by decide, by decide, by decide,
    (sift_bounds sink_mem after_four.heap 0 (by decide) (by decide)).2,
    by decide, by decide, by decide, by decide,
    (sift_bounds rise_mem after_four.heap 3 (by decide) (by decide)).1⟩

/-- C19: on a store with `2 <= size <= 100` whose entries `data[0 .. 100)` point to
pairwise distinct structs, `heap_pop` returns `data[0]` and afterwards the entry
`data[size]` (at the new `size`) points to the same struct as exactly one live
entry `data[j]`, `j < size`, while no entry of `data` points to the struct of the
popped event; the next valid registration, which writes through `data[size]`,
therefore replaces the flag, offset text, message and time of that live event.
`heapify_up`, `heapify_down` and `my_schedule` preserve the pairwise distinctness
of `data[0 .. 100)`; `heap_pop` preserves it when `size = 1`, destroys it when
`size >= 2`, and changes nothing when `size = 0`. -/
theorem pop_leaves_alias (mem : Mem) (heap : Heap) :
    (2 ≤ heap.size → heap.size ≤ CAPACITY → data_distinct heap →
      (heap_pop mem heap).2 = some (heap.data 0) ∧
      (∃ j, j < (heap_pop mem heap).1.size ∧
        (heap_pop mem heap).1.data j = (heap_pop mem heap).1.data (heap_pop mem heap).1.size ∧
        (∀ j1, j1 < (heap_pop mem heap).1.size →
          (heap_pop mem heap).1.data j1 =
            (heap_pop mem heap).1.data (heap_pop mem heap).1.size → j1 = j) ∧
        ∀ (c : Call) (h m s : Int), valid_call c → parsed_time c = [h, m, s] →
          (register ⟨(heap_pop mem heap).1, mem⟩ c).2 = none ∧
          (register ⟨(heap_pop mem heap).1, mem⟩ c).1.mem ((heap_pop mem heap).1.data j) =
            slot_of_call c h m s) ∧
      (∀ i, i < CAPACITY → (heap_pop mem heap).1.data i ≠ heap.data 0) ∧
      ¬ data_distinct (heap_pop mem heap).1) ∧
    (heap.size = 1 → data_distinct heap → data_distinct (heap_pop mem heap).1) ∧
    (heap.size = 0 → (heap_pop mem heap).1 = heap) ∧
    (∀ index, index < heap.size → heap.size ≤ CAPACITY → data_distinct heap →
      data_distinct (heapify_up mem heap index) ∧
      data_distinct (heapify_down mem heap index)) ∧
    (∀ (now_tm : Tm) (kind time message : Option Text), data_distinct heap →
      data_distinct (my_schedule ⟨heap, mem⟩ now_tm kind time message).1.heap) := by
  refine ⟨?_, ?_, ?_, ?_, ?_⟩
  · intro h2 hs hd
    obtain ⟨⟨j, hj, hjeq, huniq⟩, hpopped⟩ := heap_pop_alias mem heap h2 hs hd
    obtain ⟨_, _, _, hsize, hret⟩ := heap_pop_data mem heap (by omega)
    refine ⟨hret, ⟨j, hj, hjeq, huniq, ?_⟩, hpopped, ?_⟩
    · intro c h m s hv hparse
      have hsz : (heap_pop mem heap).1.size < CAPACITY := by omega
      rw [register_slot ⟨(heap_pop mem heap).1, mem⟩ c hv hsz h m s hparse]
      refine ⟨rfl, ?_⟩
      dsimp only
      rw [hjeq]
      exact write_slot_same _ _ _
    · intro hdis
      have := hdis j (by omega) (heap_pop mem heap).1.size (by omega) hjeq
      omega
  · intro h1 hd
    intro i hi j hj hij
    rw [heap_pop_single mem heap h1] at hij
    exact hd i hi j hj hij
  · intro h0
    simp only [heap_pop, h0, if_true]
  · intro index hi hs hd
    exact ⟨heapify_up_distinct mem heap index (by omega) hd,
      heapify_down_distinct mem heap index hs hd⟩
  · intro now_tm kind time message hd
    exact my_schedule_distinct ⟨heap, mem⟩ now_tm kind time message hd

theorem pop_leaves_alias_witness :
    (heap_pop after_four.mem after_four.heap).2 = some (after_four.heap.data 0) ∧
    (∃ j, j < (heap_pop after_four.mem after_four.heap).1.size ∧
      (heap_pop after_four.mem after_four.heap).1.data j =
        (heap_pop after_four.mem after_four.heap).1.data
          (heap_pop after_four.mem after_four.heap).1.size ∧
      (∀ j1, j1 < (heap_pop after_four.mem after_four.heap).1.size →
        (heap_pop after_four.mem after_four.heap).1.data j1 =
          (heap_pop after_four.mem after_four.heap).1.data
            (heap_pop after_four.mem after_four.heap).1.size → j1 = j) ∧
      ∀ (c : Call) (h m s : Int), valid_call c → parsed_time c = [h, m, s] →
        (register ⟨(heap_pop after_four.mem after_four.heap).1, after_four.mem⟩ c).2 = none ∧
        (register ⟨(heap_pop after_four.mem after_four.heap).1, after_four.mem⟩ c).1.mem
          ((heap_pop after_four.mem after_four.heap).1.data j) = slot_of_call c h m s) ∧
    (∀ i, i < CAPACITY → (heap_pop after_four.mem after_four.heap).1.data i ≠
      after_four.heap.data 0) ∧
    ¬ data_distinct (heap_pop after_four.mem after_four.heap).1 :=
  (pop_leaves_alias after_four.mem after_four.heap).1 (by decide) (by decide)
    after_four_distinct

end MySchedule
